import Mathlib

/-!
# Verification of the palank-rag hybrid retrieval core

This file gives a shallow embedding, in Lean 4, of the algorithmic core of
the `palank-rag` repository and proves properties of it:

* `src/knowledge/chunker.rs` — the markdown-aware text chunker
  (`MarkdownChunker::chunk` and its helpers);
* `src/knowledge/hybrid.rs` — Reciprocal Rank Fusion
  (`HybridRetriever::rrf_merge`, `HybridRetriever::search`,
  `HybridRetriever::delete_document`);
* `src/embedding/mod.rs` — the retry/rate-limit behaviour of
  `GeminiEmbedding::embed`;
* `src/knowledge/vector.rs` — the word-based `chunk_text` utility.

Texts are modelled as lists of characters (`Str`).  The Rust code measures
`str::len` in UTF-8 bytes; in this character-level model every index is a
character boundary and lengths count characters, which coincides with the
byte view on ASCII inputs (all concrete inputs used below are ASCII).
Floating-point `f32` scores are modelled with exact rationals `ℚ`; all the
score expressions involved are small sums of reciprocals, and the proved
comparisons hold for the real values the code approximates.
-/

set_option linter.unusedVariables false

/-- Character strings, modelled as lists of characters. -/
abbrev Str := List Char

namespace RagCore

/-- ASCII whitespace recognition (`char::is_whitespace` restricted to the
ASCII whitespace characters that occur in the modelled inputs). -/
def isWS (c : Char) : Bool :=
  c = ' ' || c = '\t' || c = '\n' || c = '\r'

/-- `str::trim_start`. -/
def trimStart (s : Str) : Str := s.dropWhile isWS

/-- `str::trim_end`. -/
def trimEnd (s : Str) : Str := (s.reverse.dropWhile isWS).reverse

/-- `str::trim`. -/
def trim (s : Str) : Str := trimEnd (trimStart s)

/-- The paragraph separator `"\n\n"`. -/
def nl2 : Str := ['\n', '\n']

/-- Does `p` occur at the front of `s`? (`str::starts_with`.) -/
def leadsWith : Str → Str → Bool
  | [], _ => true
  | _ :: _, [] => false
  | p :: ps, c :: cs => p = c && leadsWith ps cs

/-- Index of the first occurrence of the pattern `pat` in `s`
(`str::find` for string patterns). -/
def findSub (pat : Str) : Str → Option Nat
  | [] => if pat = [] then some 0 else none
  | c :: cs =>
    if leadsWith pat (c :: cs) then some 0
    else (findSub pat cs).map (· + 1)

/-- Index of the first character satisfying `p` (`str::find` for a
character-class pattern). -/
def findCharIdx (p : Char → Bool) : Str → Option Nat
  | [] => none
  | c :: cs => if p c then some 0 else (findCharIdx p cs).map (· + 1)

/-- Fuelled worker for `splitOnSub`. -/
def splitOnSubGo (pat : Str) : Nat → Str → List Str
  | 0, s => [s]
  | fuel + 1, s =>
    match findSub pat s with
    | none => [s]
    | some i => s.take i :: splitOnSubGo pat fuel (s.drop (i + pat.length))

/-- `str::split(pat)` for a non-empty string pattern: split on successive
non-overlapping occurrences, left to right.  The fuel `s.length + 1` is
always sufficient because each found occurrence removes at least one
character. -/
def splitOnSub (pat : Str) (s : Str) : List Str :=
  splitOnSubGo pat (s.length + 1) s

/-- Split on a single character, keeping empty segments. -/
def splitChar (sep : Char) : Str → List Str
  | [] => [[]]
  | c :: cs =>
    if c = sep then [] :: splitChar sep cs
    else
      match splitChar sep cs with
      | [] => [[c]]
      | p :: ps => (c :: p) :: ps

/-- Strip one trailing carriage return (part of `str::lines`). -/
def stripCR (l : Str) : Str :=
  if l.getLast? = some '\r' then l.dropLast else l

/-- `str::lines`: split at `'\n'`, not keeping a final empty line for a
trailing newline, and stripping a trailing `'\r'` from each line. -/
def linesOf (s : Str) : List Str :=
  if s = [] then []
  else
    let segs := splitChar '\n' s
    let segs := if s.getLast? = some '\n' then segs.dropLast else segs
    segs.map stripCR

/-- Join a list of strings with single spaces (`[&str]::join(" ")`). -/
def joinSp : List Str → Str
  | [] => []
  | [w] => w
  | w :: ws => w ++ ' ' :: joinSp ws

/-- `str::split_whitespace`: maximal runs of non-whitespace characters. -/
def splitWhitespaceGo : Str → Str → List Str
  | acc, [] => if acc = [] then [] else [acc.reverse]
  | acc, c :: cs =>
    if isWS c then
      if acc = [] then splitWhitespaceGo [] cs
      else acc.reverse :: splitWhitespaceGo [] cs
    else splitWhitespaceGo (c :: acc) cs

/-- `str::split_whitespace`. -/
def splitWhitespace (s : Str) : List Str := splitWhitespaceGo [] s

/-- Convert a Lean string literal to the character-list model. -/
def str (s : String) : Str := s.data

/-! ## The markdown chunker (`src/knowledge/chunker.rs`) -/

/-- `ChunkConfig` from `chunker.rs`. -/
structure ChunkConfig where
  min_characters : Nat
  max_characters : Nat
  overlap_characters : Nat
deriving DecidableEq

namespace ChunkConfig

/-- `ChunkConfig::default()`. -/
def default : ChunkConfig := ⟨200, 1200, 100⟩

end ChunkConfig

namespace MarkdownChunker

/-- Does the regex `^(#{1,6})\s+` match at the start of a (newline-free)
line?  With backtracking this holds exactly when the line starts with
between one and six `#` characters followed by a whitespace character. -/
def headerMatch (line : Str) : Bool :=
  let k := (line.takeWhile (· = '#')).length
  1 ≤ k && k ≤ 6 && (match line.drop k with
    | c :: _ => isWS c
    | [] => false)

/-- One iteration of the line loop of `MarkdownChunker::split_sections`:
state is `(sections, current, in_code_block)`. -/
def sectionStep (st : List Str × Str × Bool) (line : Str) : List Str × Str × Bool :=
  let inCode := if leadsWith (str "```") (trimStart line) then !st.2.2 else st.2.2
  let (secs, cur) :=
    if !inCode && headerMatch line && !st.2.1.isEmpty
    then (st.1 ++ [trim st.2.1], ([] : Str))
    else (st.1, st.2.1)
  (secs, cur ++ line ++ ['\n'], inCode)

/-- `MarkdownChunker::split_sections`. -/
def split_sections (text : Str) : List Str :=
  let st := (linesOf text).foldl sectionStep ([], [], false)
  if !(trim st.2.1).isEmpty then st.1 ++ [trim st.2.1] else st.1

/-- One iteration of the inner line loop of
`MarkdownChunker::split_long_section` (splitting an over-long paragraph on
line boundaries); state is `(chunks, line_chunk)`. -/
def procLine (cfg : ChunkConfig) (st : List Str × Str) (line : Str) : List Str × Str :=
  let st1 :=
    if st.2 ≠ [] ∧ cfg.max_characters < st.2.length + line.length + 1
    then (st.1 ++ [st.2], ([] : Str))
    else st
  (st1.1, (if st1.2 ≠ [] then st1.2 ++ ['\n'] else st1.2) ++ line)

/-- One iteration of the paragraph loop of
`MarkdownChunker::split_long_section`; state is `(chunks, current)`. -/
def procPara (cfg : ChunkConfig) (st : List Str × Str) (para0 : Str) : List Str × Str :=
  let para := trim para0
  if para = [] then st
  else
    let st1 :=
      if st.2 ≠ [] ∧ cfg.max_characters < st.2.length + para.length + 2
      then (if cfg.min_characters ≤ st.2.length then (st.1 ++ [st.2], ([] : Str)) else st)
      else st
    if cfg.max_characters < para.length then
      let st2 :=
        if st1.2 ≠ [] ∧ cfg.min_characters ≤ st1.2.length
        then (st1.1 ++ [st1.2], ([] : Str))
        else st1
      let res := (linesOf para).foldl (procLine cfg) (st2.1, ([] : Str))
      (res.1, if res.2 ≠ [] then res.2 else st2.2)
    else
      (st1.1, (if st1.2 ≠ [] then st1.2 ++ nl2 else st1.2) ++ para)

/-- One iteration of `MarkdownChunker::merge_small_chunks`, on a reversed
accumulator (the Rust code mutates `result.last_mut()`). -/
def mergeStep (cfg : ChunkConfig) (racc : List Str) (c : Str) : List Str :=
  match racc with
  | [] => [c]
  | last :: rest =>
    if last.length < cfg.min_characters ∧
       last.length + c.length + 2 ≤ cfg.max_characters
    then (last ++ nl2 ++ c) :: rest
    else c :: last :: rest

/-- `MarkdownChunker::merge_small_chunks`. -/
def merge_small_chunks (cfg : ChunkConfig) (chunks : List Str) : List Str :=
  if cfg.min_characters = 0 then chunks
  else (chunks.foldl (mergeStep cfg) []).reverse

/-- `MarkdownChunker::split_long_section`. -/
def split_long_section (cfg : ChunkConfig) (s : Str) : List Str :=
  if s.length ≤ cfg.max_characters then [s]
  else
    let st := (splitOnSub nl2 s).foldl (procPara cfg) ([], [])
    let chunks := if st.2 ≠ [] then st.1 ++ [st.2] else st.1
    merge_small_chunks cfg chunks

/-- `floor_char_boundary` from `chunker.rs`: clamp the index to the string
length and move it down to a character boundary.  In this character-level
model every index is a character boundary, so only the clamping remains. -/
def floor_char_boundary (s : Str) (index : Nat) : Nat :=
  if s.length ≤ index then s.length else index

/-- `let overlap_start = prev.len().saturating_sub(self.config.overlap_characters)`
followed by the character-boundary adjustment in `apply_overlap`. -/
def overlapStartOf (cfg : ChunkConfig) (prev : Str) : Nat :=
  floor_char_boundary prev (prev.length - cfg.overlap_characters)

/-- The word-boundary adjustment of `apply_overlap`: the position right
after the first whitespace character of the overlap window, or the window
start when the window contains no whitespace. -/
def wordStartOf (cfg : ChunkConfig) (prev : Str) : Nat :=
  match findCharIdx isWS (prev.drop (overlapStartOf cfg prev)) with
  | some p => overlapStartOf cfg prev + p + 1
  | none => overlapStartOf cfg prev

/-- The overlap text that `MarkdownChunker::apply_overlap` prepends to a
chunk whose predecessor is `prev`: `some o` when the (trimmed) overlap `o`
is injected, `none` when it is omitted (`overlap.trim()` empty or
`overlap.len() <= 20`). -/
def computeOverlap (cfg : ChunkConfig) (prev : Str) : Option Str :=
  let overlap := prev.drop (wordStartOf cfg prev)
  if trim overlap ≠ [] ∧ 20 < overlap.length then some (trim overlap) else none

/-- The `"...\n"` marker that opens an injected overlap. -/
def dotsMark : Str := str "...\n"

/-- The `"\n---\n"` separator between the injected overlap and the chunk. -/
def dashMark : Str := str "\n---\n"

/-- The body of the `i ≥ 1` branch of `apply_overlap`'s loop. -/
def overlapOne (cfg : ChunkConfig) (prev c : Str) : Str :=
  match computeOverlap cfg prev with
  | some o => dotsMark ++ o ++ dashMark ++ c
  | none => c

/-- The `apply_overlap` loop over the chunks after the first, each paired
with its (original, pre-overlap) predecessor `prev`. -/
def overlapZip (cfg : ChunkConfig) : Str → List Str → List Str
  | _, [] => []
  | prev, c :: cs => overlapOne cfg prev c :: overlapZip cfg c cs

/-- `MarkdownChunker::apply_overlap`. -/
def apply_overlap (cfg : ChunkConfig) (chunks : List Str) : List Str :=
  if cfg.overlap_characters = 0 ∨ chunks.length < 2 then chunks
  else
    match chunks with
    | [] => []
    | c0 :: rest => c0 :: overlapZip cfg c0 rest

/-- The chunk list produced by `MarkdownChunker::chunk` just before
`apply_overlap` runs (steps 1–3 of the trait implementation). -/
def preChunks (cfg : ChunkConfig) (text : Str) : List Str :=
  if (trim text).isEmpty then []
  else (((split_sections text).map (split_long_section cfg)).flatten).filter
    (fun c => !(trim c).isEmpty)

/-- `MarkdownChunker::chunk` (the `Chunker` trait implementation). -/
def chunk (cfg : ChunkConfig) (text : Str) : List Str :=
  if (trim text).isEmpty then []
  else apply_overlap cfg (preChunks cfg text)

/-- The size invariant that actually holds of a pre-overlap chunk: it is
bounded by `min_characters + max_characters + 1`, or it is a single line
(an atomic line exceeding the bound is preserved whole). -/
def okChunk (cfg : ChunkConfig) (c : Str) : Prop :=
  c.length ≤ cfg.min_characters + cfg.max_characters + 1 ∨ '\n' ∉ c

/-- The spec's chunk-size claim, per input: every chunk returned by
`chunk` has at most `max_characters` characters, except a chunk that is a
single atomic paragraph or line (in particular it contains no blank-line
paragraph separator `"\n\n"`). -/
def chunkSizeClaim (cfg : ChunkConfig) (text : Str) : Prop :=
  ∀ c ∈ chunk cfg text, c.length ≤ cfg.max_characters ∨ ¬ ∃ t u, c = t ++ nl2 ++ u

/-- The spec's overlap claim, per input: whenever `overlap_characters > 0`
and a chunk after the first carries an injected overlap `o`, then `o` is
(the trimmed form of) a suffix of the previous pre-overlap chunk which
starts at a word boundary (at the very start of the previous chunk or
right after a whitespace character), and after trimming whitespace `o` is
at least 20 characters long. -/
def overlapClaim (cfg : ChunkConfig) (text : Str) : Prop :=
  0 < cfg.overlap_characters →
  ∀ i, i + 1 < (chunk cfg text).length →
    (chunk cfg text).getD (i + 1) [] = (preChunks cfg text).getD (i + 1) [] ∨
    ∃ o, (chunk cfg text).getD (i + 1) [] =
           dotsMark ++ o ++ dashMark ++ (preChunks cfg text).getD (i + 1) [] ∧
         20 ≤ (trim o).length ∧
         ∃ s, (∃ t, t ++ s = (preChunks cfg text).getD i []) ∧ o = trim s ∧
           (s = (preChunks cfg text).getD i [] ∨
            ∃ t c', (preChunks cfg text).getD i [] = t ++ c' :: s ∧ isWS c' = true)

end MarkdownChunker

/-! ## Reciprocal Rank Fusion (`src/knowledge/hybrid.rs`) -/

/-- `SearchMethod` from `hybrid.rs`. -/
inductive SearchMethod where
  | vector
  | fts
  | hybrid
deriving DecidableEq

/-- One entry of the `scores` map built by `HybridRetriever::rrf_merge`:
`doc_id -> (rrf_score, fts_result, vector_result)`.  The two `Option`
components are modelled by the booleans `fromFts` / `fromVec` recording
whether the corresponding slot is `Some`. -/
structure MergeEntry where
  doc_id : Int
  score : ℚ
  fromFts : Bool
  fromVec : Bool
deriving DecidableEq

namespace HybridRetriever

/-- The RRF constant `K = 60.0`. -/
def K : ℚ := 60

/-- `scores.entry(doc_id).or_insert((0.0, None, None))` followed by
`entry.0 += c` and `entry.1 = Some(..)` (the FTS pass).  The map is
modelled as an association list in first-insertion order. -/
def upsertFts (st : List MergeEntry) (d : Int) (c : ℚ) : List MergeEntry :=
  match st with
  | [] => [⟨d, 0 + c, true, false⟩]
  | e :: rest =>
    if e.doc_id = d then ⟨d, e.score + c, true, e.fromVec⟩ :: rest
    else e :: upsertFts rest d c

/-- The vector-pass analogue of `upsertFts` (`entry.2 = Some(..)`). -/
def upsertVec (st : List MergeEntry) (d : Int) (c : ℚ) : List MergeEntry :=
  match st with
  | [] => [⟨d, 0 + c, false, true⟩]
  | e :: rest =>
    if e.doc_id = d then ⟨d, e.score + c, e.fromFts, true⟩ :: rest
    else e :: upsertVec rest d c

/-- The `for (rank, result) in fts_results.iter().enumerate()` loop, with
the running rank made explicit. -/
def addFtsFrom (rank : Nat) : List Int → List MergeEntry → List MergeEntry
  | [], st => st
  | d :: ds, st => addFtsFrom (rank + 1) ds (upsertFts st d (1 / (K + rank + 1)))

/-- The `for (rank, result) in vector_results.iter().enumerate()` loop. -/
def addVecFrom (rank : Nat) : List Int → List MergeEntry → List MergeEntry
  | [], st => st
  | d :: ds, st => addVecFrom (rank + 1) ds (upsertVec st d (1 / (K + rank + 1)))

/-- The fully populated `scores` map of `rrf_merge`, in first-insertion
order, for keyword results `fts` and vector results `vec` (each given by
its ranked list of `doc_id`s). -/
def rrfEntries (fts vec : List Int) : List MergeEntry :=
  addVecFrom 0 vec (addFtsFrom 0 fts [])

/-- The score recorded for a document id in a score map (`0` when the id
is absent). -/
def scoreOfList (st : List MergeEntry) (x : Int) : ℚ :=
  match st.find? (fun e => e.doc_id = x) with
  | some e => e.score
  | none => 0

/-- The fused score `rrf_merge` assigns to a document id (`0` when the id
is in neither result list, matching its absence from the map). -/
def rrfScoreOf (fts vec : List Int) (d : Int) : ℚ :=
  scoreOfList (rrfEntries fts vec) d

/-- The FTS flag (`entry.1.is_some()`) recorded for a document id. -/
def ftsFlagOf (st : List MergeEntry) (x : Int) : Bool :=
  match st.find? (fun e => e.doc_id = x) with
  | some e => e.fromFts
  | none => false

/-- The vector flag (`entry.2.is_some()`) recorded for a document id. -/
def vecFlagOf (st : List MergeEntry) (x : Int) : Bool :=
  match st.find? (fun e => e.doc_id = x) with
  | some e => e.fromVec
  | none => false

/-- The document ids of a score map, in insertion order. -/
def idsOf (st : List MergeEntry) : List Int := st.map (·.doc_id)

/-- The sum `Σ 1/(K + rank + 1)` of the contributions a ranked result
list gives to a document id, the rank counter starting at `rank`
(specification-side closed form of the enumerate loops). -/
def contribSum (rank : Nat) : List Int → Int → ℚ
  | [], _ => 0
  | d :: ds, x => (if x = d then 1 / (K + rank + 1) else 0) + contribSum (rank + 1) ds x

/-- Insertion into a descending-by-score list
(`results.sort_by(|a, b| b.1.partial_cmp(&a.1) ...)`). -/
def insertByScore (e : MergeEntry) : List MergeEntry → List MergeEntry
  | [] => [e]
  | x :: xs => if x.score ≤ e.score then e :: x :: xs else x :: insertByScore e xs

/-- Sorting by strictly descending score (a stable sort, as Rust's
`sort_by`). -/
def sortByScoreDesc : List MergeEntry → List MergeEntry
  | [] => []
  | e :: es => insertByScore e (sortByScoreDesc es)

/-- `HybridRetriever::rrf_merge` up to the final conversion:
build the score map, sort descending, truncate to `limit`. -/
def rrf_merge (fts vec : List Int) (limit : Nat) : List MergeEntry :=
  (sortByScoreDesc (rrfEntries fts vec)).take limit

/-- The fields of `HybridSearchResult` determined by `rrf_merge` itself
(document metadata comes from a store lookup and is not modelled). -/
structure HybridSearchResult where
  doc_id : Int
  rrf_score : ℚ
  method : SearchMethod
deriving DecidableEq

/-- The conversion of a score-map entry into a `HybridSearchResult`
(the `match (fts_opt.is_some(), vec_opt.is_some())` of `rrf_merge`). -/
def toResult (e : MergeEntry) : HybridSearchResult :=
  ⟨e.doc_id, e.score,
    match e.fromFts, e.fromVec with
    | true, true => .hybrid
    | true, false => .fts
    | false, true => .vector
    | false, false => .hybrid⟩

/-- The fused result list returned by `HybridRetriever::search` once the
two backend result lists are fixed: `rrf_merge` mapped into
`HybridSearchResult`s. -/
def searchResults (fts vec : List Int) (limit : Nat) : List HybridSearchResult :=
  (rrf_merge fts vec limit).map toResult

end HybridRetriever

/-! ## The embedding client (`src/embedding/mod.rs`)

`GeminiEmbedding::embed` is an async HTTP client; its retry/backoff
control flow is embedded by abstracting one call attempt into an
`UpstreamResp` and supplying the sequence of attempt outcomes as a
function of the attempt number.  The returned `EmbedOutcome` records how
many upstream calls were issued (each one acquires the rate limiter
exactly once before sending) and which backoff sleeps were performed. -/

/-- `MAX_RETRIES` from `embedding/mod.rs`. -/
def MAX_RETRIES : Nat := 3

/-- `INITIAL_BACKOFF_MS` from `embedding/mod.rs`. -/
def INITIAL_BACKOFF_MS : Nat := 2000

/-- The backoff used after attempt number `attempt`:
`INITIAL_BACKOFF_MS * 2u64.pow(attempt)`. -/
def backoffMs (attempt : Nat) : Nat := INITIAL_BACKOFF_MS * 2 ^ attempt

/-- The outcome of one upstream embedding call attempt. -/
inductive UpstreamResp where
  /-- 2xx with a parsed embedding vector. -/
  | ok (v : List ℚ)
  /-- HTTP 429. -/
  | rateLimited
  /-- any other non-success HTTP status. -/
  | otherError (status : Nat)
  /-- the request could not be sent (network-transport failure). -/
  | transportFail

/-- The result of `embed` together with the observable effects modelled
here: the number of upstream call attempts actually issued (equals the
number of rate-limiter acquisitions) and the backoff sleeps performed. -/
structure EmbedOutcome where
  calls : Nat
  sleeps : List Nat
  result : Except String (List ℚ)

namespace GeminiEmbedding

/-- Error message recorded for a transport failure. -/
def transportMsg : String := "Failed to send embedding request"

/-- Error message recorded for a 429 response. -/
def rateMsg : String := "Rate limit exceeded (429)"

/-- Error message for a non-retryable upstream error status. -/
def apiMsg (status : Nat) : String := "Gemini API error " ++ toString status

/-- The `for attempt in 0..=MAX_RETRIES` retry loop of
`GeminiEmbedding::embed`. -/
def embedAttempts (responses : Nat → UpstreamResp) (attempt : Nat)
    (lastErr : Option String) (calls : Nat) (sleeps : List Nat) : EmbedOutcome :=
  if h : attempt ≤ MAX_RETRIES then
    match responses attempt with
    | .ok v => ⟨calls + 1, sleeps, .ok v⟩
    | .transportFail =>
      if attempt < MAX_RETRIES then
        embedAttempts responses (attempt + 1) (some transportMsg) (calls + 1)
          (sleeps ++ [backoffMs attempt])
      else ⟨calls + 1, sleeps, .error transportMsg⟩
    | .rateLimited =>
      if attempt < MAX_RETRIES then
        embedAttempts responses (attempt + 1) (some rateMsg) (calls + 1)
          (sleeps ++ [backoffMs attempt])
      else
        embedAttempts responses (attempt + 1) (some rateMsg) (calls + 1) sleeps
    | .otherError status => ⟨calls + 1, sleeps, .error (apiMsg status)⟩
  else ⟨calls, sleeps, .error (lastErr.getD "Embedding failed")⟩
termination_by MAX_RETRIES + 2 - attempt
decreasing_by all_goals (simp [MAX_RETRIES] at *; omega)

/-- `GeminiEmbedding::embed`: empty/whitespace-only input short-circuits
to a zero vector of the configured dimension without any upstream call;
otherwise the retry loop runs. -/
def embed (dimension : Nat) (text : Str) (responses : Nat → UpstreamResp) : EmbedOutcome :=
  if (trim text).isEmpty then ⟨0, [], .ok (List.replicate dimension 0)⟩
  else embedAttempts responses 0 none 0 []

end GeminiEmbedding

/-! ## Document deletion (`hybrid.rs`, `store.rs`, `lance.rs`)

`HybridRetriever::delete_document` sequences two backend deletions.  The
two stores are modelled by the lists of keyword row ids and of vector
entries' `doc_id`s; the order of the two backend calls is recorded as an
explicit event trace. -/

/-- The persistent state of the two search backends. -/
structure RagState where
  /-- ids of the rows in the SQLite `documents` table. -/
  docRows : List Int
  /-- `doc_id` of each vector entry in the LanceDB table. -/
  vecRows : List Int
deriving DecidableEq

/-- An observable backend deletion call. -/
inductive DbOp where
  /-- `LanceVectorStore::delete_by_doc_id`, with the removed-row count it
  returned. -/
  | delVectors (doc_id : Int) (removed : Nat)
  /-- `KnowledgeStore::delete_document`. -/
  | delKeywordRow (doc_id : Int)
deriving DecidableEq

/-- `KnowledgeStore::delete_document`: `DELETE FROM documents WHERE id = ?`,
returning whether any row was deleted (`rows > 0`). -/
def KnowledgeStore.delete_document (s : RagState) (id : Int) : RagState × Bool :=
  ({ s with docRows := s.docRows.filter (fun d => d ≠ id) }, decide (id ∈ s.docRows))

/-- `LanceVectorStore::delete_by_doc_id`: delete all vector entries with
this `doc_id` and return `before_count - after_count` (0 when the table
does not exist or holds no matching rows; never an error). -/
def LanceVectorStore.delete_by_doc_id (s : RagState) (id : Int) : RagState × Nat :=
  let after := s.vecRows.filter (fun d => d ≠ id)
  ({ s with vecRows := after }, s.vecRows.length - after.length)

/-- `HybridRetriever::delete_document`: vectors first, then the SQLite
row; the keyword store's boolean is returned.  The trace records the
order of the two backend calls. -/
def HybridRetriever.delete_document (s : RagState) (id : Int) :
    RagState × Bool × List DbOp :=
  let (s1, removed) := LanceVectorStore.delete_by_doc_id s id
  let (s2, existed) := KnowledgeStore.delete_document s1 id
  (s2, existed, [.delVectors id removed, .delKeywordRow id])

/-! ## The word-based `chunk_text` utility (`src/knowledge/vector.rs`) -/

/-- Possible outcomes of running the `while start < words.len()` loop of
`chunk_text` with a given amount of fuel. -/
inductive ChunkLoopRes where
  /-- the loop exited and produced these chunks. -/
  | finished (chunks : List Str)
  /-- the update `start += chunk_size - overlap` would underflow
  (`overlap > chunk_size`; a panic in debug builds). -/
  | underflow
  /-- the fuel ran out before the loop exited. -/
  | fuelOut (chunks : List Str)
deriving DecidableEq

namespace chunk_text

/-- The `while start < words.len()` loop of `chunk_text`, fuelled. -/
def loop (words : List Str) (chunk_size overlap : Nat) :
    Nat → Nat → List Str → ChunkLoopRes
  | 0, _, acc => .fuelOut acc
  | fuel + 1, start, acc =>
    if start < words.length then
      let e := min (start + chunk_size) words.length
      let acc := acc ++ [joinSp ((words.drop start).take (e - start))]
      if words.length ≤ e then .finished acc
      else if overlap ≤ chunk_size then
        loop words chunk_size overlap fuel (start + (chunk_size - overlap)) acc
      else .underflow
    else .finished acc

end chunk_text

/-- `chunk_text` from `vector.rs`, with the loop fuelled. -/
def chunk_text (text : Str) (chunk_size overlap : Nat) (fuel : Nat) : ChunkLoopRes :=
  let words := splitWhitespace text
  if words = [] then .finished []
  else if words.length ≤ chunk_size then .finished [text]
  else chunk_text.loop words chunk_size overlap fuel 0 []

/-! ## Basic lemmas about the string primitives -/

theorem trim_eq_nil_of_all_ws (s : Str) (h : ∀ c ∈ s, isWS c = true) :
    trim s = [] := by
  have h1 : trimStart s = [] := by
    simpa [trimStart, List.dropWhile_eq_nil_iff] using h
  simp [trim, h1, trimEnd]

/-! ## C9 — whitespace-only input yields no chunks -/

/-- C9: for every input string whose characters are all whitespace
(including `""` and `"   "`) and any configuration, `chunk` returns the
empty sequence. -/
theorem chunk_whitespace_only_empty (cfg : ChunkConfig) (text : Str)
    (h : ∀ c ∈ text, isWS c = true) :
    MarkdownChunker.chunk cfg text = [] := by
  simp [MarkdownChunker.chunk, trim_eq_nil_of_all_ws text h]

/-- Witness for C9 at the spec's own example `"   "`. -/
theorem chunk_whitespace_only_empty_witness :
    (∀ c ∈ str "   ", isWS c = true) ∧
    MarkdownChunker.chunk ChunkConfig.default (str "   ") = [] :=
  ⟨by decide, chunk_whitespace_only_empty ChunkConfig.default (str "   ") (by decide)⟩

/-! ## C7 — empty input short-circuits `embed` -/

/-- C7: for every input whose whitespace-trimmed form is empty, `embed`
returns `Ok` with a zero vector of the configured dimension, issuing no
upstream call and no backoff sleep (hence consuming no rate-limiter
slot). -/
theorem embed_empty_input_zero_vector (dimension : Nat) (text : Str)
    (responses : Nat → UpstreamResp) (h : trim text = []) :
    GeminiEmbedding.embed dimension text responses =
      ⟨0, [], .ok (List.replicate dimension 0)⟩ ∧
    (List.replicate dimension (0 : ℚ)).length = dimension := by
  refine ⟨?_, by simp⟩
  simp [GeminiEmbedding.embed, h]

/-- Witness for C7 on a whitespace-only input at dimension 768. -/
theorem embed_empty_input_zero_vector_witness :
    trim (str " \n  ") = [] ∧
    (GeminiEmbedding.embed 768 (str " \n  ") (fun _ => .otherError 500) =
        ⟨0, [], .ok (List.replicate 768 0)⟩ ∧
      (List.replicate 768 (0 : ℚ)).length = 768) :=
  ⟨by decide,
    embed_empty_input_zero_vector 768 (str " \n  ") (fun _ => .otherError 500) (by decide)⟩

/-! ## C8 — `delete_document` order and return value -/

/-- C8: `delete_document` deletes the document's vectors from the vector
backend first and then the keyword row, returns `true` exactly when the
keyword row existed, and deleting vectors for a document with no
embeddings removes zero rows without error and without affecting the
returned boolean. -/
theorem delete_document_order_and_bool (s : RagState) (id : Int) :
    (HybridRetriever.delete_document s id).2.2 =
      [DbOp.delVectors id
        (s.vecRows.length - (s.vecRows.filter (fun d => d ≠ id)).length),
       DbOp.delKeywordRow id] ∧
    ((HybridRetriever.delete_document s id).2.1 = true ↔ id ∈ s.docRows) ∧
    (HybridRetriever.delete_document s id).1.vecRows =
      s.vecRows.filter (fun d => d ≠ id) ∧
    (HybridRetriever.delete_document s id).1.docRows =
      s.docRows.filter (fun d => d ≠ id) ∧
    (id ∉ s.vecRows →
      (HybridRetriever.delete_document s id).2.2 =
        [DbOp.delVectors id 0, DbOp.delKeywordRow id] ∧
      ((HybridRetriever.delete_document s id).2.1 = true ↔ id ∈ s.docRows)) := by
  have hfilter : id ∉ s.vecRows → s.vecRows.filter (fun d => d ≠ id) = s.vecRows := by
    intro hid
    refine List.filter_eq_self.mpr ?_
    intro a ha
    simp only [decide_eq_true_iff]
    intro heq
    exact hid (heq ▸ ha)
  refine ⟨rfl, by simp [HybridRetriever.delete_document,
      KnowledgeStore.delete_document, LanceVectorStore.delete_by_doc_id],
    rfl, rfl, ?_⟩
  intro hid
  refine ⟨?_, by simp [HybridRetriever.delete_document,
      KnowledgeStore.delete_document, LanceVectorStore.delete_by_doc_id]⟩
  show [DbOp.delVectors id
          (s.vecRows.length - (s.vecRows.filter (fun d => d ≠ id)).length),
        DbOp.delKeywordRow id] = _
  rw [hfilter hid, Nat.sub_self]

/-- Witness for C8 on a concrete state where the keyword row exists but
the document has no vectors. -/
theorem delete_document_order_and_bool_witness :
    ((HybridRetriever.delete_document ⟨[1, 2], [2, 2]⟩ 1).2.1 = true ↔
      (1 : Int) ∈ [(1 : Int), 2]) ∧
    ((1 : Int) ∉ [(2 : Int), 2] →
      (HybridRetriever.delete_document ⟨[1, 2], [2, 2]⟩ 1).2.2 =
        [DbOp.delVectors 1 0, DbOp.delKeywordRow 1] ∧
      ((HybridRetriever.delete_document ⟨[1, 2], [2, 2]⟩ 1).2.1 = true ↔
        (1 : Int) ∈ [(1 : Int), 2])) :=
  ⟨(delete_document_order_and_bool ⟨[1, 2], [2, 2]⟩ 1).2.1,
   (delete_document_order_and_bool ⟨[1, 2], [2, 2]⟩ 1).2.2.2.2⟩

/-! ## C3 — content can be lost by `split_long_section` (code bug)

In `split_long_section`, when the pending buffer `current` is non-empty
but shorter than `min_characters` and the next paragraph exceeds
`max_characters`, the flush of `current` is skipped (both flushes are
guarded by `current.len() >= min_characters`) and the line-splitting
branch then executes `current = line_chunk`, discarding the pending
buffer.  With `min_characters = 10`, `max_characters = 20` the input
below consists of the paragraph `"ab"` followed by a 25-character
paragraph; the returned chunks contain no `'a'` at all, so the
non-whitespace characters of `"ab"` are covered by no chunk. -/

/-- C3: evaluation of `chunk` at the failing input — the entire first
paragraph `"ab"` is absent from the output. -/
theorem chunk_content_loss :
    MarkdownChunker.chunk ⟨10, 20, 0⟩ (str "ab\n\nccccccccccccccccccccccccc") =
      [str "ccccccccccccccccccccccccc"] ∧
    'a' ∈ str "ab\n\nccccccccccccccccccccccccc" ∧
    'a' ∉ str "ccccccccccccccccccccccccc" := by decide

/-! ## C10 — termination of `chunk_text` -/

theorem chunk_text_loop_finishes (words : List Str) (cs ov : Nat)
    (hd : 1 ≤ cs - ov) :
    ∀ f start acc, words.length ≤ start + f →
      ∃ l, chunk_text.loop words cs ov (f + 1) start acc = .finished l := by
  intro f
  induction f with
  | zero =>
    intro start acc hle
    rw [chunk_text.loop]
    have : ¬ start < words.length := by omega
    simp [this]
  | succ f ih =>
    intro start acc hle
    rw [chunk_text.loop]
    by_cases hs : start < words.length
    · simp only [hs, if_true]
      by_cases he : words.length ≤ min (start + cs) words.length
      · simp [he]
      · have hov : ov ≤ cs := by omega
        simp only [he, if_false, hov, if_true]
        exact ih (start + (cs - ov)) _ (by omega)
    · simp [hs]

theorem chunk_text_loop_spins (words : List Str) (cs : Nat) :
    ∀ f start acc, start + cs < words.length →
      ∃ a, chunk_text.loop words cs cs f start acc = .fuelOut a := by
  intro f
  induction f with
  | zero => intro start acc hlt; exact ⟨acc, rfl⟩
  | succ f ih =>
    intro start acc hlt
    rw [chunk_text.loop]
    have hs : start < words.length := by omega
    have he : ¬ words.length ≤ min (start + cs) words.length := by omega
    simp only [hs, if_true, he, if_false, le_refl, Nat.sub_self, Nat.add_zero]
    exact ih start _ hlt

/-- C10: `chunk_text` terminates whenever `overlap < chunk_size` (with
fuel one more than the word count), and also whenever the word count is
at most `chunk_size`; with `overlap = chunk_size` and more than
`chunk_size` words the loop never exits for any amount of fuel (the
stride is zero); with `overlap > chunk_size` and more than `chunk_size`
words the stride subtraction underflows on the first iteration. -/
theorem chunk_text_termination :
    (∀ text cs ov, ov < cs →
      ∃ l, chunk_text text cs ov ((splitWhitespace text).length + 1) = .finished l) ∧
    (∀ text cs ov fuel, (splitWhitespace text).length ≤ cs →
      ∃ l, chunk_text text cs ov fuel = .finished l) ∧
    (∀ text cs fuel, cs < (splitWhitespace text).length →
      ∃ acc, chunk_text text cs cs fuel = .fuelOut acc) ∧
    (∀ text cs ov fuel, cs < ov → cs < (splitWhitespace text).length →
      chunk_text text cs ov (fuel + 1) = .underflow) := by
  refine ⟨?_, ?_, ?_, ?_⟩
  · intro text cs ov hlt
    by_cases hnil : splitWhitespace text = []
    · exact ⟨[], by simp [chunk_text, hnil]⟩
    · by_cases hle : (splitWhitespace text).length ≤ cs
      · exact ⟨[text], by simp [chunk_text, hnil, hle]⟩
      · have := chunk_text_loop_finishes (splitWhitespace text) cs ov (by omega)
          ((splitWhitespace text).length) 0 [] (by omega)
        obtain ⟨l, hl⟩ := this
        exact ⟨l, by simpa [chunk_text, hnil, hle] using hl⟩
  · intro text cs ov fuel hle
    by_cases hnil : splitWhitespace text = []
    · exact ⟨[], by simp [chunk_text, hnil]⟩
    · exact ⟨[text], by simp [chunk_text, hnil, hle]⟩
  · intro text cs fuel hlt
    have hnil : ¬ splitWhitespace text = [] := by
      intro h; rw [h] at hlt; simp at hlt
    have hle : ¬ (splitWhitespace text).length ≤ cs := by omega
    obtain ⟨a, ha⟩ := chunk_text_loop_spins (splitWhitespace text) cs fuel 0 [] (by omega)
    exact ⟨a, by simpa [chunk_text, hnil, hle] using ha⟩
  · intro text cs ov fuel hcs hlt
    have hnil : ¬ splitWhitespace text = [] := by
      intro h; rw [h] at hlt; simp at hlt
    have hle : ¬ (splitWhitespace text).length ≤ cs := by omega
    simp only [chunk_text, hnil, if_false, hle]
    rw [chunk_text.loop]
    have hs : (0 : Nat) < (splitWhitespace text).length := by omega
    have he : ¬ (splitWhitespace text).length ≤ min (0 + cs) (splitWhitespace text).length := by
      omega
    have hov : ¬ ov ≤ cs := by omega
    simp only [hs, if_true, he, if_false, hov]

/-- Witness for C10: with 5 words, `chunk_size = 2` and `overlap = 1` the
loop finishes. -/
theorem chunk_text_termination_witness :
    1 < 2 ∧ ∃ l, chunk_text (str "a b c d e") 2 1
      ((splitWhitespace (str "a b c d e")).length + 1) = .finished l :=
  ⟨by decide, chunk_text_termination.1 (str "a b c d e") 2 1 (by decide)⟩

/-! ## C4 — retry policy of `embed` -/

/-- C4: for non-empty input, `embed` retries a 429 response and a
network-transport failure up to `MAX_RETRIES = 3` additional attempts
with exponential backoff `2000ms, 4000ms, ...` (doubling each attempt),
returns the successful vector as soon as an attempt succeeds (in
particular 429, 429, success yields the success after sleeps 2000 and
4000), returns an error after all `MAX_RETRIES + 1` attempts fail, and
fails immediately, with no further attempts, on any other non-success
response. -/
theorem embed_retry_policy :
    (∀ (dimension : Nat) (text : Str) (responses : Nat → UpstreamResp) (v : List ℚ),
      trim text ≠ [] →
      responses 0 = .rateLimited → responses 1 = .rateLimited → responses 2 = .ok v →
      GeminiEmbedding.embed dimension text responses = ⟨3, [2000, 4000], .ok v⟩) ∧
    (∀ (dimension : Nat) (text : Str) (responses : Nat → UpstreamResp) (v : List ℚ)
        (k : Nat),
      trim text ≠ [] → k ≤ MAX_RETRIES →
      (∀ j < k, responses j = .rateLimited ∨ responses j = .transportFail) →
      responses k = .ok v →
      GeminiEmbedding.embed dimension text responses =
        ⟨k + 1, (List.range k).map backoffMs, .ok v⟩) ∧
    (∀ (dimension : Nat) (text : Str) (responses : Nat → UpstreamResp),
      trim text ≠ [] →
      (∀ j ≤ MAX_RETRIES, responses j = .rateLimited ∨ responses j = .transportFail) →
      (GeminiEmbedding.embed dimension text responses).calls = MAX_RETRIES + 1 ∧
      ∃ m, (GeminiEmbedding.embed dimension text responses).result = .error m) ∧
    (∀ (dimension : Nat) (text : Str) (responses : Nat → UpstreamResp)
        (status : Nat) (k : Nat),
      trim text ≠ [] → k ≤ MAX_RETRIES →
      (∀ j < k, responses j = .rateLimited ∨ responses j = .transportFail) →
      responses k = .otherError status →
      GeminiEmbedding.embed dimension text responses =
        ⟨k + 1, (List.range k).map backoffMs, .error (GeminiEmbedding.apiMsg status)⟩) := by
  have hne : ∀ (text : Str), trim text ≠ [] → (trim text).isEmpty = false := by
    intro text h
    cases htr : trim text with
    | nil => exact absurd htr h
    | cons a l => rfl
  have hgen : ∀ (responses : Nat → UpstreamResp) (v : List ℚ) (k : Nat),
      k ≤ MAX_RETRIES →
      (∀ j < k, responses j = .rateLimited ∨ responses j = .transportFail) →
      responses k = .ok v →
      GeminiEmbedding.embedAttempts responses 0 none 0 [] =
        ⟨k + 1, (List.range k).map backoffMs, .ok v⟩ := by
    intro responses v k hk hfail hok
    simp only [MAX_RETRIES] at hk
    interval_cases k
    · rw [GeminiEmbedding.embedAttempts]
      simp [MAX_RETRIES, hok]
    · have h0 := hfail 0 (by omega)
      rw [GeminiEmbedding.embedAttempts]
      rcases h0 with h0 | h0 <;>
        simp [MAX_RETRIES, h0, hok, GeminiEmbedding.embedAttempts, List.range_succ]
    · have h0 := hfail 0 (by omega)
      have h1 := hfail 1 (by omega)
      rw [GeminiEmbedding.embedAttempts]
      rcases h0 with h0 | h0 <;> rcases h1 with h1 | h1 <;>
        simp [MAX_RETRIES, h0, h1, hok, GeminiEmbedding.embedAttempts, List.range_succ]
    · have h0 := hfail 0 (by omega)
      have h1 := hfail 1 (by omega)
      have h2 := hfail 2 (by omega)
      rw [GeminiEmbedding.embedAttempts]
      rcases h0 with h0 | h0 <;> rcases h1 with h1 | h1 <;> rcases h2 with h2 | h2 <;>
        simp [MAX_RETRIES, h0, h1, h2, hok, GeminiEmbedding.embedAttempts, List.range_succ]
  refine ⟨?_, ?_, ?_, ?_⟩
  · intro dimension text responses v hne' h0 h1 h2
    have := hgen responses v 2 (by simp [MAX_RETRIES])
      (fun j hj => by interval_cases j <;> simp [h0, h1]) h2
    simp only [GeminiEmbedding.embed, hne text hne', Bool.false_eq_true, if_false]
    rw [this]
    simp [List.range_succ, backoffMs, INITIAL_BACKOFF_MS]
  · intro dimension text responses v k hne' hk hfail hok
    simp only [GeminiEmbedding.embed, hne text hne', Bool.false_eq_true, if_false]
    exact hgen responses v k hk hfail hok
  · intro dimension text responses hne' hfail
    simp only [GeminiEmbedding.embed, hne text hne', Bool.false_eq_true, if_false]
    have h0 := hfail 0 (by simp [MAX_RETRIES])
    have h1 := hfail 1 (by simp [MAX_RETRIES])
    have h2 := hfail 2 (by simp [MAX_RETRIES])
    have h3 := hfail 3 (by simp [MAX_RETRIES])
    rw [GeminiEmbedding.embedAttempts]
    rcases h0 with h0 | h0 <;> rcases h1 with h1 | h1 <;> rcases h2 with h2 | h2 <;>
      rcases h3 with h3 | h3 <;>
      simp [MAX_RETRIES, h0, h1, h2, h3, GeminiEmbedding.embedAttempts]
  · intro dimension text responses status k hne' hk hfail hother
    simp only [GeminiEmbedding.embed, hne text hne', Bool.false_eq_true, if_false]
    simp only [MAX_RETRIES] at hk
    interval_cases k
    · rw [GeminiEmbedding.embedAttempts]
      simp [MAX_RETRIES, hother]
    · have h0 := hfail 0 (by omega)
      rw [GeminiEmbedding.embedAttempts]
      rcases h0 with h0 | h0 <;>
        simp [MAX_RETRIES, h0, hother, GeminiEmbedding.embedAttempts, List.range_succ]
    · have h0 := hfail 0 (by omega)
      have h1 := hfail 1 (by omega)
      rw [GeminiEmbedding.embedAttempts]
      rcases h0 with h0 | h0 <;> rcases h1 with h1 | h1 <;>
        simp [MAX_RETRIES, h0, h1, hother, GeminiEmbedding.embedAttempts, List.range_succ]
    · have h0 := hfail 0 (by omega)
      have h1 := hfail 1 (by omega)
      have h2 := hfail 2 (by omega)
      rw [GeminiEmbedding.embedAttempts]
      rcases h0 with h0 | h0 <;> rcases h1 with h1 | h1 <;> rcases h2 with h2 | h2 <;>
        simp [MAX_RETRIES, h0, h1, h2, hother, GeminiEmbedding.embedAttempts,
          List.range_succ]

/-- Witness for C4: two 429s then a success returns the successful
vector with sleeps 2000 and 4000. -/
theorem embed_retry_policy_witness :
    trim (str "hello") ≠ [] ∧
    GeminiEmbedding.embed 768 (str "hello")
        (fun n => if n = 2 then .ok [1] else .rateLimited) =
      ⟨3, [2000, 4000], .ok [1]⟩ :=
  ⟨by decide,
    embed_retry_policy.1 768 (str "hello")
      (fun n => if n = 2 then .ok [1] else .rateLimited) [1]
      (by decide) (by simp) (by simp) (by simp)⟩

/-! ## C1 — the RRF score formula -/

open HybridRetriever

theorem scoreOfList_nil (x : Int) : scoreOfList [] x = 0 := rfl

theorem scoreOfList_cons (e : MergeEntry) (l : List MergeEntry) (x : Int) :
    scoreOfList (e :: l) x = if e.doc_id = x then e.score else scoreOfList l x := by
  by_cases h : e.doc_id = x
  · simp only [scoreOfList]
    rw [@List.find?_cons_of_pos MergeEntry (fun e' => decide (e'.doc_id = x)) e l
      (by simp [h])]
    simp [h]
  · simp only [scoreOfList]
    rw [@List.find?_cons_of_neg MergeEntry (fun e' => decide (e'.doc_id = x)) e l
      (by simp [h])]
    simp [h]

theorem scoreOfList_upsertFts (st : List MergeEntry) (d : Int) (c : ℚ) (x : Int) :
    scoreOfList (upsertFts st d c) x =
      if x = d then scoreOfList st x + c else scoreOfList st x := by
  induction st with
  | nil =>
    rw [upsertFts, scoreOfList_cons]
    by_cases hxd : x = d
    · subst hxd; simp [scoreOfList_nil]
    · have hdx : ¬ (d : Int) = x := fun h => hxd h.symm
      simp [scoreOfList_nil, hxd, hdx]
  | cons e rest ih =>
    by_cases hed : e.doc_id = d
    · simp only [upsertFts, hed, if_true]
      rw [scoreOfList_cons, scoreOfList_cons]
      by_cases hxd : x = d
      · subst hxd; simp [hed]
      · have hdx : ¬ (d : Int) = x := fun h => hxd h.symm
        have hex : ¬ e.doc_id = x := by rw [hed]; exact hdx
        simp [hdx, hex, hxd]
    · simp only [upsertFts, hed, if_false]
      rw [scoreOfList_cons, scoreOfList_cons, ih]
      by_cases hex : e.doc_id = x
      · have hxd : ¬ x = d := fun h => hed (by rw [hex, h])
        simp [hex, hxd]
      · simp [hex]

theorem scoreOfList_upsertVec (st : List MergeEntry) (d : Int) (c : ℚ) (x : Int) :
    scoreOfList (upsertVec st d c) x =
      if x = d then scoreOfList st x + c else scoreOfList st x := by
  induction st with
  | nil =>
    rw [upsertVec, scoreOfList_cons]
    by_cases hxd : x = d
    · subst hxd; simp [scoreOfList_nil]
    · have hdx : ¬ (d : Int) = x := fun h => hxd h.symm
      simp [scoreOfList_nil, hxd, hdx]
  | cons e rest ih =>
    by_cases hed : e.doc_id = d
    · simp only [upsertVec, hed, if_true]
      rw [scoreOfList_cons, scoreOfList_cons]
      by_cases hxd : x = d
      · subst hxd; simp [hed]
      · have hdx : ¬ (d : Int) = x := fun h => hxd h.symm
        have hex : ¬ e.doc_id = x := by rw [hed]; exact hdx
        simp [hdx, hex, hxd]
    · simp only [upsertVec, hed, if_false]
      rw [scoreOfList_cons, scoreOfList_cons, ih]
      by_cases hex : e.doc_id = x
      · have hxd : ¬ x = d := fun h => hed (by rw [hex, h])
        simp [hex, hxd]
      · simp [hex]

theorem scoreOfList_addFtsFrom (l : List Int) :
    ∀ (rank : Nat) (st : List MergeEntry) (x : Int),
      scoreOfList (addFtsFrom rank l st) x = scoreOfList st x + contribSum rank l x := by
  induction l with
  | nil => intro rank st x; simp [addFtsFrom, contribSum]
  | cons d ds ih =>
    intro rank st x
    rw [addFtsFrom, ih, scoreOfList_upsertFts, contribSum]
    by_cases hxd : x = d <;> simp [hxd] <;> ring

theorem scoreOfList_addVecFrom (l : List Int) :
    ∀ (rank : Nat) (st : List MergeEntry) (x : Int),
      scoreOfList (addVecFrom rank l st) x = scoreOfList st x + contribSum rank l x := by
  induction l with
  | nil => intro rank st x; simp [addVecFrom, contribSum]
  | cons d ds ih =>
    intro rank st x
    rw [addVecFrom, ih, scoreOfList_upsertVec, contribSum]
    by_cases hxd : x = d <;> simp [hxd] <;> ring

theorem contribSum_of_not_mem (l : List Int) :
    ∀ (rank : Nat) (x : Int), x ∉ l → contribSum rank l x = 0 := by
  induction l with
  | nil => intro rank x _; rfl
  | cons d ds ih =>
    intro rank x hx
    rw [contribSum, if_neg (fun h => hx (by rw [h]; exact List.mem_cons_self d ds)),
      ih (rank + 1) x (fun h => hx (List.mem_cons_of_mem d h))]
    ring

theorem contribSum_of_nodup (l : List Int) :
    ∀ (rank : Nat) (x : Int), l.Nodup → x ∈ l →
      contribSum rank l x = 1 / (K + ((rank : ℚ) + (l.indexOf x : ℚ)) + 1) := by
  induction l with
  | nil => intro rank x _ hx; cases hx
  | cons d ds ih =>
    intro rank x hnd hx
    rcases List.mem_cons.mp hx with hxd | hxds
    · subst hxd
      have hnot : x ∉ ds := (List.nodup_cons.mp hnd).1
      rw [contribSum, if_pos rfl, contribSum_of_not_mem ds (rank + 1) x hnot,
        List.indexOf_cons_self]
      push_cast
      ring
    · have hxd : ¬ x = d := fun h => (List.nodup_cons.mp hnd).1 (h ▸ hxds)
      rw [contribSum, if_neg hxd, ih (rank + 1) x (List.nodup_cons.mp hnd).2 hxds,
        List.indexOf_cons_ne _ (fun h => hxd h.symm)]
      push_cast
      ring

/-- C1: the fused score `rrf_merge` assigns to a document id is the sum,
over the result lists containing that id, of `1/(60 + r + 1)` where `r`
is the id's 0-based rank in that list (zero for a list it is absent
from); in particular for keyword ranks `[A, B, C]` and vector ranks
`[B, A, D]` (all distinct), `B` scores strictly higher than `C` and
strictly higher than `D`. -/
theorem rrf_score_formula :
    (∀ (fts vec : List Int) (d : Int), fts.Nodup → vec.Nodup →
      rrfScoreOf fts vec d =
        (if d ∈ fts then 1 / (60 + (fts.indexOf d : ℚ) + 1) else 0) +
        (if d ∈ vec then 1 / (60 + (vec.indexOf d : ℚ) + 1) else 0)) ∧
    (∀ A B C D : Int, A ≠ B → A ≠ C → A ≠ D → B ≠ C → B ≠ D → C ≠ D →
      rrfScoreOf [A, B, C] [B, A, D] C < rrfScoreOf [A, B, C] [B, A, D] B ∧
      rrfScoreOf [A, B, C] [B, A, D] D < rrfScoreOf [A, B, C] [B, A, D] B) := by
  have hmain : ∀ (fts vec : List Int) (d : Int), fts.Nodup → vec.Nodup →
      rrfScoreOf fts vec d =
        (if d ∈ fts then 1 / (60 + (fts.indexOf d : ℚ) + 1) else 0) +
        (if d ∈ vec then 1 / (60 + (vec.indexOf d : ℚ) + 1) else 0) := by
    intro fts vec d hf hv
    rw [rrfScoreOf, rrfEntries, scoreOfList_addVecFrom, scoreOfList_addFtsFrom,
      scoreOfList_nil]
    have hpart : ∀ (l : List Int), l.Nodup →
        contribSum 0 l d = if d ∈ l then 1 / (60 + (l.indexOf d : ℚ) + 1) else 0 := by
      intro l hnd
      by_cases hd : d ∈ l
      · rw [contribSum_of_nodup l 0 d hnd hd, if_pos hd, K]
        norm_num
      · rw [contribSum_of_not_mem l 0 d hd, if_neg hd]
    rw [hpart fts hf, hpart vec hv]
    ring
  refine ⟨hmain, ?_⟩
  intro A B C D hAB hAC hAD hBC hBD hCD
  have hf : ([A, B, C] : List Int).Nodup := by simp [hAB, hAC, hBC]
  have hv : ([B, A, D] : List Int).Nodup := by
    simp [Ne.symm hAB, hBD, hAD]
  have hB : rrfScoreOf [A, B, C] [B, A, D] B = 1 / 62 + 1 / 61 := by
    rw [hmain _ _ _ hf hv]
    rw [if_pos (by simp), if_pos (by simp)]
    rw [List.indexOf_cons_ne _ hAB, List.indexOf_cons_self, List.indexOf_cons_self]
    push_cast
    norm_num
  have hC : rrfScoreOf [A, B, C] [B, A, D] C = 1 / 63 := by
    rw [hmain _ _ _ hf hv]
    rw [if_pos (by simp), if_neg (by simp [Ne.symm hBC, Ne.symm hAC, hCD])]
    rw [List.indexOf_cons_ne _ hAC, List.indexOf_cons_ne _ hBC, List.indexOf_cons_self]
    push_cast
    norm_num
  have hD : rrfScoreOf [A, B, C] [B, A, D] D = 1 / 63 := by
    rw [hmain _ _ _ hf hv]
    rw [if_neg (by simp [Ne.symm hAD, Ne.symm hBD, Ne.symm hCD]), if_pos (by simp)]
    rw [List.indexOf_cons_ne _ hBD, List.indexOf_cons_ne _ hAD, List.indexOf_cons_self]
    push_cast
    norm_num
  rw [hB, hC, hD]
  norm_num

/-- Witness for C1 with concrete ids `A, B, C, D = 0, 1, 2, 3`. -/
theorem rrf_score_formula_witness :
    ([0, 1, 2] : List Int).Nodup ∧
    (rrfScoreOf [0, 1, 2] [1, 0, 3] 2 < rrfScoreOf [0, 1, 2] [1, 0, 3] 1 ∧
     rrfScoreOf [0, 1, 2] [1, 0, 3] 3 < rrfScoreOf [0, 1, 2] [1, 0, 3] 1) :=
  ⟨by decide,
    rrf_score_formula.2 0 1 2 3 (by decide) (by decide) (by decide) (by decide)
      (by decide) (by decide)⟩

/-! ## C6 — `rrf_merge` result list: limit, order, provenance -/

theorem ftsFlagOf_cons (e : MergeEntry) (l : List MergeEntry) (x : Int) :
    ftsFlagOf (e :: l) x = if e.doc_id = x then e.fromFts else ftsFlagOf l x := by
  by_cases h : e.doc_id = x
  · simp only [ftsFlagOf]
    rw [@List.find?_cons_of_pos MergeEntry (fun e' => decide (e'.doc_id = x)) e l
      (by simp [h])]
    simp [h]
  · simp only [ftsFlagOf]
    rw [@List.find?_cons_of_neg MergeEntry (fun e' => decide (e'.doc_id = x)) e l
      (by simp [h])]
    simp [h]

theorem vecFlagOf_cons (e : MergeEntry) (l : List MergeEntry) (x : Int) :
    vecFlagOf (e :: l) x = if e.doc_id = x then e.fromVec else vecFlagOf l x := by
  by_cases h : e.doc_id = x
  · simp only [vecFlagOf]
    rw [@List.find?_cons_of_pos MergeEntry (fun e' => decide (e'.doc_id = x)) e l
      (by simp [h])]
    simp [h]
  · simp only [vecFlagOf]
    rw [@List.find?_cons_of_neg MergeEntry (fun e' => decide (e'.doc_id = x)) e l
      (by simp [h])]
    simp [h]

theorem ftsFlagOf_nil (x : Int) : ftsFlagOf [] x = false := rfl

theorem vecFlagOf_nil (x : Int) : vecFlagOf [] x = false := rfl

theorem ftsFlagOf_upsertFts (st : List MergeEntry) (d : Int) (c : ℚ) (x : Int) :
    ftsFlagOf (upsertFts st d c) x = if x = d then true else ftsFlagOf st x := by
  induction st with
  | nil =>
    rw [upsertFts, ftsFlagOf_cons]
    by_cases hxd : x = d
    · simp [hxd]
    · have hdx : ¬ (d : Int) = x := fun h => hxd h.symm
      simp [hxd, hdx, ftsFlagOf_nil]
  | cons e rest ih =>
    by_cases hed : e.doc_id = d
    · simp only [upsertFts, hed, if_true]
      rw [ftsFlagOf_cons, ftsFlagOf_cons]
      by_cases hxd : x = d
      · simp [hxd, hed]
      · have hdx : ¬ (d : Int) = x := fun h => hxd h.symm
        have hex : ¬ e.doc_id = x := by rw [hed]; exact hdx
        simp [hxd, hdx, hex]
    · simp only [upsertFts, hed, if_false]
      rw [ftsFlagOf_cons, ftsFlagOf_cons, ih]
      by_cases hex : e.doc_id = x
      · have hxd : ¬ x = d := fun h => hed (by rw [hex, h])
        simp [hex, hxd]
      · simp [hex]

theorem vecFlagOf_upsertFts (st : List MergeEntry) (d : Int) (c : ℚ) (x : Int) :
    vecFlagOf (upsertFts st d c) x = vecFlagOf st x := by
  induction st with
  | nil =>
    rw [upsertFts, vecFlagOf_cons]
    by_cases hdx : (d : Int) = x <;> simp [hdx, vecFlagOf_nil]
  | cons e rest ih =>
    by_cases hed : e.doc_id = d
    · simp only [upsertFts, hed, if_true]
      rw [vecFlagOf_cons, vecFlagOf_cons]
      by_cases hdx : (d : Int) = x
      · simp [hdx, hed ▸ hdx]
      · simp [hdx, show ¬ e.doc_id = x from hed ▸ hdx]
    · simp only [upsertFts, hed, if_false]
      rw [vecFlagOf_cons, vecFlagOf_cons, ih]

theorem ftsFlagOf_upsertVec (st : List MergeEntry) (d : Int) (c : ℚ) (x : Int) :
    ftsFlagOf (upsertVec st d c) x = ftsFlagOf st x := by
  induction st with
  | nil =>
    rw [upsertVec, ftsFlagOf_cons]
    by_cases hdx : (d : Int) = x <;> simp [hdx, ftsFlagOf_nil]
  | cons e rest ih =>
    by_cases hed : e.doc_id = d
    · simp only [upsertVec, hed, if_true]
      rw [ftsFlagOf_cons, ftsFlagOf_cons]
      by_cases hdx : (d : Int) = x
      · simp [hdx, hed ▸ hdx]
      · simp [hdx, show ¬ e.doc_id = x from hed ▸ hdx]
    · simp only [upsertVec, hed, if_false]
      rw [ftsFlagOf_cons, ftsFlagOf_cons, ih]

theorem vecFlagOf_upsertVec (st : List MergeEntry) (d : Int) (c : ℚ) (x : Int) :
    vecFlagOf (upsertVec st d c) x = if x = d then true else vecFlagOf st x := by
  induction st with
  | nil =>
    rw [upsertVec, vecFlagOf_cons]
    by_cases hxd : x = d
    · simp [hxd]
    · have hdx : ¬ (d : Int) = x := fun h => hxd h.symm
      simp [hxd, hdx, vecFlagOf_nil]
  | cons e rest ih =>
    by_cases hed : e.doc_id = d
    · simp only [upsertVec, hed, if_true]
      rw [vecFlagOf_cons, vecFlagOf_cons]
      by_cases hxd : x = d
      · simp [hxd, hed]
      · have hdx : ¬ (d : Int) = x := fun h => hxd h.symm
        have hex : ¬ e.doc_id = x := by rw [hed]; exact hdx
        simp [hxd, hdx, hex]
    · simp only [upsertVec, hed, if_false]
      rw [vecFlagOf_cons, vecFlagOf_cons, ih]
      by_cases hex : e.doc_id = x
      · have hxd : ¬ x = d := fun h => hed (by rw [hex, h])
        simp [hex, hxd]
      · simp [hex]

theorem ftsFlagOf_addFtsFrom (l : List Int) :
    ∀ (rank : Nat) (st : List MergeEntry) (x : Int),
      ftsFlagOf (addFtsFrom rank l st) x = (ftsFlagOf st x || decide (x ∈ l)) := by
  induction l with
  | nil => intro rank st x; simp [addFtsFrom]
  | cons d ds ih =>
    intro rank st x
    rw [addFtsFrom, ih, ftsFlagOf_upsertFts]
    by_cases hxd : x = d <;> simp [hxd]

theorem vecFlagOf_addFtsFrom (l : List Int) :
    ∀ (rank : Nat) (st : List MergeEntry) (x : Int),
      vecFlagOf (addFtsFrom rank l st) x = vecFlagOf st x := by
  induction l with
  | nil => intro rank st x; rfl
  | cons d ds ih =>
    intro rank st x
    rw [addFtsFrom, ih, vecFlagOf_upsertFts]

theorem ftsFlagOf_addVecFrom (l : List Int) :
    ∀ (rank : Nat) (st : List MergeEntry) (x : Int),
      ftsFlagOf (addVecFrom rank l st) x = ftsFlagOf st x := by
  induction l with
  | nil => intro rank st x; rfl
  | cons d ds ih =>
    intro rank st x
    rw [addVecFrom, ih, ftsFlagOf_upsertVec]

theorem vecFlagOf_addVecFrom (l : List Int) :
    ∀ (rank : Nat) (st : List MergeEntry) (x : Int),
      vecFlagOf (addVecFrom rank l st) x = (vecFlagOf st x || decide (x ∈ l)) := by
  induction l with
  | nil => intro rank st x; simp [addVecFrom]
  | cons d ds ih =>
    intro rank st x
    rw [addVecFrom, ih, vecFlagOf_upsertVec]
    by_cases hxd : x = d <;> simp [hxd]

theorem ftsFlagOf_rrfEntries (fts vec : List Int) (x : Int) :
    ftsFlagOf (rrfEntries fts vec) x = decide (x ∈ fts) := by
  rw [rrfEntries, ftsFlagOf_addVecFrom, ftsFlagOf_addFtsFrom, ftsFlagOf_nil]
  simp

theorem vecFlagOf_rrfEntries (fts vec : List Int) (x : Int) :
    vecFlagOf (rrfEntries fts vec) x = decide (x ∈ vec) := by
  rw [rrfEntries, vecFlagOf_addVecFrom, vecFlagOf_addFtsFrom, vecFlagOf_nil]
  simp

theorem idsOf_upsertFts (st : List MergeEntry) (d : Int) (c : ℚ) :
    idsOf (upsertFts st d c) =
      if d ∈ idsOf st then idsOf st else idsOf st ++ [d] := by
  induction st with
  | nil => simp [upsertFts, idsOf]
  | cons e rest ih =>
    by_cases hed : e.doc_id = d
    · simp [upsertFts, hed, idsOf]
    · have hde : ¬ (d : Int) = e.doc_id := fun h => hed h.symm
      simp only [upsertFts, hed, if_false, idsOf, List.map_cons] at *
      rw [ih]
      by_cases hmem : d ∈ List.map (fun e => e.doc_id) rest <;>
        simp [hmem, hde]

theorem idsOf_upsertVec (st : List MergeEntry) (d : Int) (c : ℚ) :
    idsOf (upsertVec st d c) =
      if d ∈ idsOf st then idsOf st else idsOf st ++ [d] := by
  induction st with
  | nil => simp [upsertVec, idsOf]
  | cons e rest ih =>
    by_cases hed : e.doc_id = d
    · simp [upsertVec, hed, idsOf]
    · have hde : ¬ (d : Int) = e.doc_id := fun h => hed h.symm
      simp only [upsertVec, hed, if_false, idsOf, List.map_cons] at *
      rw [ih]
      by_cases hmem : d ∈ List.map (fun e => e.doc_id) rest <;>
        simp [hmem, hde]

theorem nodup_idsOf_upsertFts (st : List MergeEntry) (d : Int) (c : ℚ)
    (h : (idsOf st).Nodup) : (idsOf (upsertFts st d c)).Nodup := by
  rw [idsOf_upsertFts]
  by_cases hmem : d ∈ idsOf st
  · simpa [hmem] using h
  · simp [hmem, List.nodup_append, h]

theorem nodup_idsOf_upsertVec (st : List MergeEntry) (d : Int) (c : ℚ)
    (h : (idsOf st).Nodup) : (idsOf (upsertVec st d c)).Nodup := by
  rw [idsOf_upsertVec]
  by_cases hmem : d ∈ idsOf st
  · simpa [hmem] using h
  · simp [hmem, List.nodup_append, h]

theorem nodup_idsOf_addFtsFrom (l : List Int) :
    ∀ (rank : Nat) (st : List MergeEntry), (idsOf st).Nodup →
      (idsOf (addFtsFrom rank l st)).Nodup := by
  induction l with
  | nil => intro rank st h; exact h
  | cons d ds ih =>
    intro rank st h
    exact ih (rank + 1) _ (nodup_idsOf_upsertFts st d _ h)

theorem nodup_idsOf_addVecFrom (l : List Int) :
    ∀ (rank : Nat) (st : List MergeEntry), (idsOf st).Nodup →
      (idsOf (addVecFrom rank l st)).Nodup := by
  induction l with
  | nil => intro rank st h; exact h
  | cons d ds ih =>
    intro rank st h
    exact ih (rank + 1) _ (nodup_idsOf_upsertVec st d _ h)

theorem nodup_idsOf_rrfEntries (fts vec : List Int) :
    (idsOf (rrfEntries fts vec)).Nodup :=
  nodup_idsOf_addVecFrom vec 0 _
    (nodup_idsOf_addFtsFrom fts 0 [] List.nodup_nil)

theorem mem_idsOf_addFtsFrom (l : List Int) :
    ∀ (rank : Nat) (st : List MergeEntry) (x : Int),
      x ∈ idsOf (addFtsFrom rank l st) → x ∈ idsOf st ∨ x ∈ l := by
  induction l with
  | nil => intro rank st x h; exact Or.inl h
  | cons d ds ih =>
    intro rank st x h
    rcases ih (rank + 1) _ x h with h1 | h1
    · rw [idsOf_upsertFts] at h1
      by_cases hmem : d ∈ idsOf st
      · rw [if_pos hmem] at h1; exact Or.inl h1
      · rw [if_neg hmem] at h1
        rcases List.mem_append.mp h1 with h2 | h2
        · exact Or.inl h2
        · simp only [List.mem_singleton] at h2
          exact Or.inr (h2 ▸ List.mem_cons_self d ds)
    · exact Or.inr (List.mem_cons_of_mem d h1)

theorem mem_idsOf_addVecFrom (l : List Int) :
    ∀ (rank : Nat) (st : List MergeEntry) (x : Int),
      x ∈ idsOf (addVecFrom rank l st) → x ∈ idsOf st ∨ x ∈ l := by
  induction l with
  | nil => intro rank st x h; exact Or.inl h
  | cons d ds ih =>
    intro rank st x h
    rcases ih (rank + 1) _ x h with h1 | h1
    · rw [idsOf_upsertVec] at h1
      by_cases hmem : d ∈ idsOf st
      · rw [if_pos hmem] at h1; exact Or.inl h1
      · rw [if_neg hmem] at h1
        rcases List.mem_append.mp h1 with h2 | h2
        · exact Or.inl h2
        · simp only [List.mem_singleton] at h2
          exact Or.inr (h2 ▸ List.mem_cons_self d ds)
    · exact Or.inr (List.mem_cons_of_mem d h1)

theorem mem_rrfEntries_id (fts vec : List Int) (e : MergeEntry)
    (he : e ∈ rrfEntries fts vec) : e.doc_id ∈ fts ∨ e.doc_id ∈ vec := by
  have hid : e.doc_id ∈ idsOf (rrfEntries fts vec) :=
    List.mem_map_of_mem (fun e' => e'.doc_id) he
  rcases mem_idsOf_addVecFrom vec 0 _ _ hid with h1 | h1
  · rcases mem_idsOf_addFtsFrom fts 0 [] _ h1 with h2 | h2
    · cases h2
    · exact Or.inl h2
  · exact Or.inr h1

theorem find?_eq_of_mem_of_nodup :
    ∀ (st : List MergeEntry), (idsOf st).Nodup → ∀ e ∈ st,
      st.find? (fun e' => e'.doc_id = e.doc_id) = some e := by
  intro st
  induction st with
  | nil => intro _ e he; cases he
  | cons a rest ih =>
    intro hnd e he
    rcases List.mem_cons.mp he with rfl | he'
    · exact List.find?_cons_of_pos _ (by simp)
    · have hnd2 : a.doc_id ∉ idsOf rest ∧ (idsOf rest).Nodup := by
        rw [idsOf, List.map_cons] at hnd
        exact List.nodup_cons.mp hnd
      have hae : ¬ a.doc_id = e.doc_id := by
        intro h
        exact hnd2.1 (h ▸ List.mem_map_of_mem (fun e' => e'.doc_id) he')
      rw [List.find?_cons_of_neg _ (by simp [hae])]
      exact ih hnd2.2 e he'

theorem rrfEntries_flags (fts vec : List Int) (e : MergeEntry)
    (he : e ∈ rrfEntries fts vec) :
    e.fromFts = decide (e.doc_id ∈ fts) ∧ e.fromVec = decide (e.doc_id ∈ vec) := by
  have hfind := find?_eq_of_mem_of_nodup _ (nodup_idsOf_rrfEntries fts vec) e he
  constructor
  · have h1 : ftsFlagOf (rrfEntries fts vec) e.doc_id = e.fromFts := by
      rw [ftsFlagOf, hfind]
    rw [← h1, ftsFlagOf_rrfEntries]
  · have h2 : vecFlagOf (rrfEntries fts vec) e.doc_id = e.fromVec := by
      rw [vecFlagOf, hfind]
    rw [← h2, vecFlagOf_rrfEntries]

theorem mem_insertByScore (e x : MergeEntry) :
    ∀ l : List MergeEntry, x ∈ insertByScore e l ↔ x = e ∨ x ∈ l := by
  intro l
  induction l with
  | nil => simp [insertByScore]
  | cons a rest ih =>
    rw [insertByScore]
    by_cases h : a.score ≤ e.score
    · simp [h]
    · simp only [h, if_false, List.mem_cons, ih]
      tauto

theorem mem_sortByScoreDesc (x : MergeEntry) :
    ∀ l : List MergeEntry, x ∈ sortByScoreDesc l ↔ x ∈ l := by
  intro l
  induction l with
  | nil => simp [sortByScoreDesc]
  | cons a rest ih =>
    rw [sortByScoreDesc, mem_insertByScore]
    simp [ih]

theorem sorted_insertByScore (e : MergeEntry) :
    ∀ l : List MergeEntry,
      l.Sorted (fun a b => b.score ≤ a.score) →
      (insertByScore e l).Sorted (fun a b => b.score ≤ a.score) := by
  intro l
  induction l with
  | nil => intro _; simp [insertByScore]
  | cons a rest ih =>
    intro hs
    rw [insertByScore]
    rcases List.sorted_cons.mp hs with ⟨ha, hrest⟩
    by_cases h : a.score ≤ e.score
    · rw [if_pos h]
      refine List.sorted_cons.mpr ⟨?_, hs⟩
      intro b hb
      rcases List.mem_cons.mp hb with rfl | hb'
      · exact h
      · exact le_trans (ha b hb') h
    · rw [if_neg h]
      refine List.sorted_cons.mpr ⟨?_, ih hrest⟩
      intro b hb
      rcases (mem_insertByScore e b rest).mp hb with rfl | hb'
      · exact le_of_not_le h
      · exact ha b hb'

theorem sorted_sortByScoreDesc :
    ∀ l : List MergeEntry,
      (sortByScoreDesc l).Sorted (fun a b => b.score ≤ a.score) := by
  intro l
  induction l with
  | nil => simp [sortByScoreDesc]
  | cons a rest ih => exact sorted_insertByScore a _ ih

/-- C6: for all backend result lists and every limit, the fused list is
at most `limit` long, sorted by descending `rrf_score`, and each result
is tagged `hybrid` exactly when its `doc_id` occurs in both input lists,
`fts` exactly when it occurs only in the keyword list, and `vector`
exactly when it occurs only in the vector list. -/
theorem rrf_merge_limit_sorted_tagged (fts vec : List Int) (limit : Nat) :
    (searchResults fts vec limit).length ≤ limit ∧
    (searchResults fts vec limit).Sorted (fun a b => b.rrf_score ≤ a.rrf_score) ∧
    ∀ r ∈ searchResults fts vec limit,
      (r.method = SearchMethod.hybrid ↔ (r.doc_id ∈ fts ∧ r.doc_id ∈ vec)) ∧
      (r.method = SearchMethod.fts ↔ (r.doc_id ∈ fts ∧ r.doc_id ∉ vec)) ∧
      (r.method = SearchMethod.vector ↔ (r.doc_id ∉ fts ∧ r.doc_id ∈ vec)) := by
  refine ⟨?_, ?_, ?_⟩
  · rw [searchResults, List.length_map, rrf_merge, List.length_take]
    exact min_le_left _ _
  · rw [searchResults, rrf_merge]
    refine List.Pairwise.map _ (fun a b h => h) ?_
    exact List.Pairwise.sublist (List.take_sublist _ _)
      (sorted_sortByScoreDesc (rrfEntries fts vec))
  · intro r hr
    rw [searchResults] at hr
    obtain ⟨e, he, rfl⟩ := List.mem_map.mp hr
    have he2 : e ∈ rrfEntries fts vec := by
      have := List.take_subset limit (sortByScoreDesc (rrfEntries fts vec)) (by exact he)
      exact (mem_sortByScoreDesc e _).mp this
    obtain ⟨hf, hv⟩ := rrfEntries_flags fts vec e he2
    have hdom := mem_rrfEntries_id fts vec e he2
    by_cases hmf : e.doc_id ∈ fts <;> by_cases hmv : e.doc_id ∈ vec
    · simp only [hmf, hmv] at hf hv
      simp at hf hv
      simp [toResult, hf, hv, hmf, hmv]
    · simp only [hmf, hmv] at hf hv
      simp at hf hv
      simp [toResult, hf, hv, hmf, hmv]
    · simp only [hmf, hmv] at hf hv
      simp at hf hv
      simp [toResult, hf, hv, hmf, hmv]
    · exact absurd hdom (by simp [hmf, hmv])

/-- Witness for C6: with keyword hits `[7]` and vector hits `[7]`,
document 7 (fused score `2/61`) is tagged `hybrid`. -/
theorem rrf_merge_limit_sorted_tagged_witness :
    HybridRetriever.toResult ⟨7, 2 / 61, true, true⟩ ∈ searchResults [7] [7] 3 ∧
    ((HybridRetriever.toResult ⟨7, 2 / 61, true, true⟩).method =
        SearchMethod.hybrid ↔
      ((HybridRetriever.toResult ⟨7, 2 / 61, true, true⟩).doc_id ∈ [(7 : Int)] ∧
        (HybridRetriever.toResult ⟨7, 2 / 61, true, true⟩).doc_id ∈ [(7 : Int)])) := by
  have hmem : HybridRetriever.toResult ⟨7, 2 / 61, true, true⟩ ∈
      searchResults [7] [7] 3 := by
    norm_num [searchResults, rrf_merge, rrfEntries, addFtsFrom, addVecFrom,
      upsertFts, upsertVec, sortByScoreDesc, insertByScore, toResult, K]
  exact ⟨hmem,
    ((rrf_merge_limit_sorted_tagged [7] [7] 3).2.2
      (HybridRetriever.toResult ⟨7, 2 / 61, true, true⟩) hmem).1⟩

/-! ## Chunker support lemmas -/

theorem trim_length_le (s : Str) : (trim s).length ≤ s.length := by
  have h1 : (trimStart s).length ≤ s.length :=
    (List.dropWhile_sublist isWS).length_le
  have h2 : (trimEnd (trimStart s)).length ≤ (trimStart s).length := by
    rw [trimEnd, List.length_reverse]
    calc (List.dropWhile isWS (trimStart s).reverse).length
        ≤ (trimStart s).reverse.length := (List.dropWhile_sublist isWS).length_le
      _ = (trimStart s).length := List.length_reverse _
  exact le_trans h2 h1

theorem splitChar_ne_nil (sep : Char) : ∀ s : Str, splitChar sep s ≠ [] := by
  intro s
  induction s with
  | nil => simp [splitChar]
  | cons c cs ih =>
    rw [splitChar]
    by_cases h : c = sep
    · simp [h]
    · simp only [h, if_false]
      cases hs : splitChar sep cs with
      | nil => simp
      | cons p ps => simp

theorem not_mem_of_mem_splitChar (sep : Char) :
    ∀ (s : Str) (p : Str), p ∈ splitChar sep s → sep ∉ p := by
  intro s
  induction s with
  | nil =>
    intro p hp
    simp only [splitChar, List.mem_singleton] at hp
    simp [hp]
  | cons c cs ih =>
    intro p hp
    rw [splitChar] at hp
    by_cases h : c = sep
    · rw [if_pos h] at hp
      rcases List.mem_cons.mp hp with rfl | hp'
      · simp
      · exact ih p hp'
    · rw [if_neg h] at hp
      cases hs : splitChar sep cs with
      | nil => exact absurd hs (splitChar_ne_nil sep cs)
      | cons q qs =>
        rw [hs] at hp
        rcases List.mem_cons.mp hp with rfl | hp'
        · intro hmem
          rcases List.mem_cons.mp hmem with h1 | h1
          · exact h h1.symm
          · exact ih q (hs ▸ List.mem_cons_self q qs) h1
        · exact ih p (hs ▸ List.mem_cons_of_mem q hp')

theorem no_nl_of_mem_linesOf (s : Str) (l : Str) (hl : l ∈ linesOf s) :
    '\n' ∉ l := by
  rw [linesOf] at hl
  by_cases hs : s = []
  · simp [hs] at hl
  · simp only [hs, if_false] at hl
    obtain ⟨p, hp, rfl⟩ := List.mem_map.mp hl
    have hp2 : p ∈ splitChar '\n' s := by
      by_cases hlast : s.getLast? = some '\n'
      · rw [if_pos hlast] at hp
        exact List.dropLast_subset _ hp
      · rw [if_neg hlast] at hp
        exact hp
    have hnl := not_mem_of_mem_splitChar '\n' s p hp2
    rw [stripCR]
    by_cases hcr : p.getLast? = some '\r'
    · rw [if_pos hcr]
      intro hmem
      exact hnl (List.dropLast_subset p hmem)
    · rw [if_neg hcr]
      exact hnl

/-! ## C2 — chunk size bound -/

theorem procLine_inv (cfg : ChunkConfig) (st : List Str × Str) (line : Str)
    (hline : '\n' ∉ line) (h1 : ∀ c ∈ st.1, MarkdownChunker.okChunk cfg c)
    (h2 : st.2.length ≤ cfg.max_characters ∨ '\n' ∉ st.2) :
    (∀ c ∈ (MarkdownChunker.procLine cfg st line).1, MarkdownChunker.okChunk cfg c) ∧
    ((MarkdownChunker.procLine cfg st line).2.length ≤ cfg.max_characters ∨
      '\n' ∉ (MarkdownChunker.procLine cfg st line).2) := by
  rw [MarkdownChunker.procLine]
  by_cases hcond : st.2 ≠ [] ∧ cfg.max_characters < st.2.length + line.length + 1
  · rw [if_pos hcond]
    refine ⟨?_, ?_⟩
    · intro c hc
      rcases List.mem_append.mp hc with hc | hc
      · exact h1 c hc
      · rcases List.mem_singleton.mp hc with rfl
        rcases h2 with h2 | h2
        · exact Or.inl (by omega)
        · exact Or.inr h2
    · have hred : ((if (st.1 ++ [st.2], ([] : Str)).2 ≠ []
          then (st.1 ++ [st.2], ([] : Str)).2 ++ ['\n']
          else (st.1 ++ [st.2], ([] : Str)).2) ++ line) = line := by simp
      rw [hred]
      exact Or.inr hline
  · rw [if_neg hcond]
    refine ⟨h1, ?_⟩
    by_cases hnil : st.2 = []
    · have hred : ((if st.2 ≠ [] then st.2 ++ ['\n'] else st.2) ++ line) = line := by
        simp [hnil]
      rw [hred]
      exact Or.inr hline
    · rw [if_pos (show st.2 ≠ [] from hnil)]
      left
      have hle : st.2.length + line.length + 1 ≤ cfg.max_characters := by
        rcases not_and_or.mp hcond with h | h
        · exact absurd hnil (by simpa using h)
        · omega
      simp only [List.length_append, List.length_singleton]
      omega

theorem procPara_inv (cfg : ChunkConfig) (st : List Str × Str) (para0 : Str)
    (h1 : ∀ c ∈ st.1, MarkdownChunker.okChunk cfg c)
    (h2 : MarkdownChunker.okChunk cfg st.2) :
    (∀ c ∈ (MarkdownChunker.procPara cfg st para0).1, MarkdownChunker.okChunk cfg c) ∧
    MarkdownChunker.okChunk cfg (MarkdownChunker.procPara cfg st para0).2 := by
  rw [MarkdownChunker.procPara]
  by_cases hpe : trim para0 = []
  · rw [if_pos hpe]
    exact ⟨h1, h2⟩
  · rw [if_neg hpe]
    dsimp only
    set para := trim para0 with hpara
    set X := if st.2 ≠ [] ∧ cfg.max_characters < st.2.length + para.length + 2
      then (if cfg.min_characters ≤ st.2.length
            then (st.1 ++ [st.2], ([] : Str)) else st)
      else st with hX
    have hXok : (∀ c ∈ X.1, MarkdownChunker.okChunk cfg c) ∧
        MarkdownChunker.okChunk cfg X.2 ∧
        (X.2 ≠ [] → X = st ∧
          (st.2.length + para.length + 2 ≤ cfg.max_characters ∨
            st.2.length < cfg.min_characters)) := by
      rw [hX]
      by_cases hc1 : st.2 ≠ [] ∧ cfg.max_characters < st.2.length + para.length + 2
      · rw [if_pos hc1]
        by_cases hc2 : cfg.min_characters ≤ st.2.length
        · rw [if_pos hc2]
          refine ⟨?_, Or.inl (by simp), ?_⟩
          · intro c hc
            rcases List.mem_append.mp hc with hc | hc
            · exact h1 c hc
            · rcases List.mem_singleton.mp hc with rfl
              exact h2
          · intro hne
            simp at hne
        · rw [if_neg hc2]
          exact ⟨h1, h2, fun _ => ⟨rfl, Or.inr (by omega)⟩⟩
      · rw [if_neg hc1]
        refine ⟨h1, h2, fun hne => ⟨rfl, ?_⟩⟩
        rcases not_and_or.mp hc1 with h | h
        · exact absurd (not_not.mp h) hne
        · exact Or.inl (by omega)
    by_cases hbig : cfg.max_characters < para.length
    · rw [if_pos hbig]
      set Y := if X.2 ≠ [] ∧ cfg.min_characters ≤ X.2.length
        then (X.1 ++ [X.2], ([] : Str)) else X with hY
      have hYok : (∀ c ∈ Y.1, MarkdownChunker.okChunk cfg c) ∧
          MarkdownChunker.okChunk cfg Y.2 := by
        rw [hY]
        by_cases hc : X.2 ≠ [] ∧ cfg.min_characters ≤ X.2.length
        · rw [if_pos hc]
          refine ⟨?_, Or.inl (by simp)⟩
          intro c hc'
          rcases List.mem_append.mp hc' with hc' | hc'
          · exact hXok.1 c hc'
          · rcases List.mem_singleton.mp hc' with rfl
            exact hXok.2.1
        · rw [if_neg hc]
          exact ⟨hXok.1, hXok.2.1⟩
      set R := (linesOf para).foldl (MarkdownChunker.procLine cfg) (Y.1, ([] : Str))
        with hR
      have hres : (∀ c ∈ R.1, MarkdownChunker.okChunk cfg c) ∧
          (R.2.length ≤ cfg.max_characters ∨ '\n' ∉ R.2) := by
        rw [hR]
        refine List.foldlRecOn (motive := fun st' : List Str × Str =>
            (∀ c ∈ st'.1, MarkdownChunker.okChunk cfg c) ∧
            (st'.2.length ≤ cfg.max_characters ∨ '\n' ∉ st'.2))
          (linesOf para) (MarkdownChunker.procLine cfg)
          (Y.1, ([] : Str)) ⟨hYok.1, Or.inl (by simp)⟩ ?_
        intro b hb line hlmem
        exact procLine_inv cfg b line (no_nl_of_mem_linesOf para line hlmem) hb.1 hb.2
      refine ⟨hres.1, ?_⟩
      by_cases hrnil : R.2 ≠ []
      · rw [if_pos hrnil]
        rcases hres.2 with h | h
        · refine Or.inl ?_
          dsimp only
          omega
        · refine Or.inr ?_
          dsimp only
          exact h
      · rw [if_neg hrnil]
        exact hYok.2
    · rw [if_neg hbig]
      refine ⟨hXok.1, ?_⟩
      by_cases hnil : X.2 = []
      · have hred : ((if X.2 ≠ [] then X.2 ++ nl2 else X.2) ++ para) = para := by
          simp [hnil]
        rw [hred]
        refine Or.inl ?_
        dsimp only
        omega
      · rw [if_pos (show X.2 ≠ [] from hnil)]
        obtain ⟨hXst, harith⟩ := hXok.2.2 hnil
        refine Or.inl ?_
        dsimp only
        rw [hXst]
        simp only [List.length_append, nl2, List.length_cons, List.length_nil]
        omega

theorem mergeStep_inv (cfg : ChunkConfig) (racc : List Str) (c : Str)
    (hacc : ∀ x ∈ racc, MarkdownChunker.okChunk cfg x)
    (hc : MarkdownChunker.okChunk cfg c) :
    ∀ x ∈ MarkdownChunker.mergeStep cfg racc c, MarkdownChunker.okChunk cfg x := by
  intro x hx
  cases racc with
  | nil =>
    rw [MarkdownChunker.mergeStep.eq_def] at hx
    dsimp only at hx
    rcases List.mem_singleton.mp hx with rfl
    exact hc
  | cons last rest =>
    rw [MarkdownChunker.mergeStep.eq_def] at hx
    dsimp only at hx
    by_cases hcond : last.length < cfg.min_characters ∧
        last.length + c.length + 2 ≤ cfg.max_characters
    · rw [if_pos hcond] at hx
      rcases List.mem_cons.mp hx with rfl | hx'
      · refine Or.inl ?_
        simp only [List.length_append, nl2, List.length_cons, List.length_nil]
        omega
      · exact hacc x (List.mem_cons_of_mem last hx')
    · rw [if_neg hcond] at hx
      rcases List.mem_cons.mp hx with rfl | hx'
      · exact hc
      · exact hacc x hx'

theorem merge_small_chunks_inv (cfg : ChunkConfig) (chunks : List Str)
    (h : ∀ c ∈ chunks, MarkdownChunker.okChunk cfg c) :
    ∀ c ∈ MarkdownChunker.merge_small_chunks cfg chunks,
      MarkdownChunker.okChunk cfg c := by
  rw [MarkdownChunker.merge_small_chunks]
  by_cases hmin : cfg.min_characters = 0
  · rw [if_pos hmin]
    exact h
  · rw [if_neg hmin]
    intro c hc
    rw [List.mem_reverse] at hc
    revert c hc
    refine List.foldlRecOn (motive := fun racc : List Str =>
        ∀ c ∈ racc, MarkdownChunker.okChunk cfg c)
      chunks (MarkdownChunker.mergeStep cfg) [] (by simp) ?_
    intro b hb a ha
    exact mergeStep_inv cfg b a hb (h a ha)

theorem split_long_section_inv (cfg : ChunkConfig) (s : Str) :
    ∀ c ∈ MarkdownChunker.split_long_section cfg s,
      MarkdownChunker.okChunk cfg c := by
  rw [MarkdownChunker.split_long_section]
  by_cases hle : s.length ≤ cfg.max_characters
  · rw [if_pos hle]
    intro c hc
    rcases List.mem_singleton.mp hc with rfl
    exact Or.inl (by omega)
  · rw [if_neg hle]
    dsimp only
    set F := (splitOnSub nl2 s).foldl (MarkdownChunker.procPara cfg) ([], [])
      with hF
    have hFok : (∀ c ∈ F.1, MarkdownChunker.okChunk cfg c) ∧
        MarkdownChunker.okChunk cfg F.2 := by
      rw [hF]
      refine List.foldlRecOn (motive := fun st : List Str × Str =>
          (∀ c ∈ st.1, MarkdownChunker.okChunk cfg c) ∧
          MarkdownChunker.okChunk cfg st.2)
        (splitOnSub nl2 s) (MarkdownChunker.procPara cfg) ([], [])
        ⟨by simp, Or.inl (by simp)⟩ ?_
      intro b hb a _
      exact procPara_inv cfg b a hb.1 hb.2
    refine merge_small_chunks_inv cfg _ ?_
    intro c hc
    by_cases hne : F.2 ≠ []
    · rw [if_pos hne] at hc
      rcases List.mem_append.mp hc with hc | hc
      · exact hFok.1 c hc
      · rcases List.mem_singleton.mp hc with rfl
        exact hFok.2
    · rw [if_neg hne] at hc
      exact hFok.1 c hc

theorem preChunks_inv (cfg : ChunkConfig) (text : Str) :
    ∀ c ∈ MarkdownChunker.preChunks cfg text, MarkdownChunker.okChunk cfg c := by
  rw [MarkdownChunker.preChunks]
  by_cases hemp : (trim text).isEmpty
  · rw [if_pos hemp]
    intro c hc
    cases hc
  · rw [if_neg hemp]
    intro c hc
    have hc2 := (List.mem_filter.mp hc).1
    rw [List.mem_flatten] at hc2
    obtain ⟨l, hl, hcl⟩ := hc2
    obtain ⟨sec, _, rfl⟩ := List.mem_map.mp hl
    exact split_long_section_inv cfg sec c hcl

theorem overlapStartOf_bounds (cfg : ChunkConfig) (prev : Str) :
    prev.length - cfg.overlap_characters ≤ MarkdownChunker.overlapStartOf cfg prev ∧
    MarkdownChunker.overlapStartOf cfg prev ≤ prev.length := by
  rw [MarkdownChunker.overlapStartOf, MarkdownChunker.floor_char_boundary]
  by_cases hcase : prev.length ≤ prev.length - cfg.overlap_characters
  · rw [if_pos hcase]
    omega
  · rw [if_neg hcase]
    omega

theorem wordStartOf_ge (cfg : ChunkConfig) (prev : Str) :
    MarkdownChunker.overlapStartOf cfg prev ≤ MarkdownChunker.wordStartOf cfg prev := by
  rw [MarkdownChunker.wordStartOf]
  cases hfind : findCharIdx isWS (prev.drop (MarkdownChunker.overlapStartOf cfg prev)) with
  | none => exact le_refl _
  | some p =>
    dsimp only
    omega

theorem computeOverlap_length_le (cfg : ChunkConfig) (prev o : Str)
    (h : MarkdownChunker.computeOverlap cfg prev = some o) :
    o.length ≤ cfg.overlap_characters := by
  rw [MarkdownChunker.computeOverlap] at h
  by_cases hcond : trim (prev.drop (MarkdownChunker.wordStartOf cfg prev)) ≠ [] ∧
      20 < (prev.drop (MarkdownChunker.wordStartOf cfg prev)).length
  · rw [if_pos hcond] at h
    have ho : o = trim (prev.drop (MarkdownChunker.wordStartOf cfg prev)) :=
      (Option.some.inj h).symm
    have h1 : o.length ≤ (prev.drop (MarkdownChunker.wordStartOf cfg prev)).length :=
      ho ▸ trim_length_le _
    rw [List.length_drop] at h1
    have h2 := overlapStartOf_bounds cfg prev
    have h3 := wordStartOf_ge cfg prev
    omega
  · rw [if_neg hcond] at h
    cases h

theorem mem_overlapZip (cfg : ChunkConfig) :
    ∀ (l : List Str) (prev c' : Str), c' ∈ MarkdownChunker.overlapZip cfg prev l →
      ∃ c ∈ l, c' = c ∨ ∃ p o, MarkdownChunker.computeOverlap cfg p = some o ∧
        c' = MarkdownChunker.dotsMark ++ o ++ MarkdownChunker.dashMark ++ c := by
  intro l
  induction l with
  | nil => intro prev c' hc; cases hc
  | cons c cs ih =>
    intro prev c' hc
    rw [MarkdownChunker.overlapZip] at hc
    rcases List.mem_cons.mp hc with rfl | hc'
    · refine ⟨c, List.mem_cons_self c cs, ?_⟩
      rw [MarkdownChunker.overlapOne]
      cases hco : MarkdownChunker.computeOverlap cfg prev with
      | none => exact Or.inl rfl
      | some o => exact Or.inr ⟨prev, o, hco, rfl⟩
    · obtain ⟨c0, hc0, hor⟩ := ih c c' hc'
      exact ⟨c0, List.mem_cons_of_mem c hc0, hor⟩

theorem mem_apply_overlap (cfg : ChunkConfig) (cs : List Str) (c' : Str)
    (hc : c' ∈ MarkdownChunker.apply_overlap cfg cs) :
    c' ∈ cs ∨ ∃ c ∈ cs, ∃ p o, MarkdownChunker.computeOverlap cfg p = some o ∧
      c' = MarkdownChunker.dotsMark ++ o ++ MarkdownChunker.dashMark ++ c := by
  rw [MarkdownChunker.apply_overlap.eq_def] at hc
  by_cases hcond : cfg.overlap_characters = 0 ∨ cs.length < 2
  · rw [if_pos hcond] at hc
    exact Or.inl hc
  · rw [if_neg hcond] at hc
    cases cs with
    | nil => cases hc
    | cons c0 rest =>
      rcases List.mem_cons.mp hc with rfl | hc'
      · exact Or.inl (List.mem_cons_self c' rest)
      · obtain ⟨c, hcmem, hor⟩ := mem_overlapZip cfg rest c0 c' hc'
        rcases hor with rfl | ⟨p, o, hco, rfl⟩
        · exact Or.inl (List.mem_cons_of_mem c0 hcmem)
        · exact Or.inr ⟨c, List.mem_cons_of_mem c0 hcmem, p, o, hco, rfl⟩

/-- C2 (amended): every chunk returned by `chunk` either has at most
`min_characters + max_characters + overlap_characters + 10` characters,
or contains a newline-free segment (an atomic line, preserved whole)
longer than `max_characters`.  Chunks can exceed `max_characters` both
because a pending buffer shorter than `min_characters` escapes the flush
and because the injected overlap adds up to `overlap_characters + 9`
characters. -/
theorem chunk_size_bound (cfg : ChunkConfig) (text : Str) :
    ∀ c ∈ MarkdownChunker.chunk cfg text,
      c.length ≤ cfg.min_characters + cfg.max_characters +
        cfg.overlap_characters + 10 ∨
      ∃ l, (∃ t u, c = t ++ l ++ u) ∧ '\n' ∉ l ∧ cfg.max_characters < l.length := by
  intro c hc
  rw [MarkdownChunker.chunk] at hc
  by_cases hemp : (trim text).isEmpty
  · rw [if_pos hemp] at hc
    cases hc
  · rw [if_neg hemp] at hc
    rcases mem_apply_overlap cfg _ c hc with hmem | ⟨c0, hc0, p, o, hco, rfl⟩
    · have hok := preChunks_inv cfg text c hmem
      rcases hok with hok | hok
      · exact Or.inl (by omega)
      · by_cases hlen : c.length ≤ cfg.min_characters + cfg.max_characters +
            cfg.overlap_characters + 10
        · exact Or.inl hlen
        · refine Or.inr ⟨c, ⟨[], [], by simp⟩, hok, by omega⟩
    · have hok := preChunks_inv cfg text c0 hc0
      have holen := computeOverlap_length_le cfg p o hco
      have hlens : (MarkdownChunker.dotsMark ++ o ++ MarkdownChunker.dashMark ++
          c0).length = o.length + c0.length + 9 := by
        simp only [List.length_append]
        have h4 : MarkdownChunker.dotsMark.length = 4 := by decide
        have h5 : MarkdownChunker.dashMark.length = 5 := by decide
        omega
      rcases hok with hok | hok
      · refine Or.inl ?_
        rw [hlens]
        omega
      · by_cases hlen : (MarkdownChunker.dotsMark ++ o ++ MarkdownChunker.dashMark ++
            c0).length ≤ cfg.min_characters + cfg.max_characters +
            cfg.overlap_characters + 10
        · exact Or.inl hlen
        · refine Or.inr ⟨c0,
            ⟨MarkdownChunker.dotsMark ++ o ++ MarkdownChunker.dashMark, [],
              by simp⟩, hok, ?_⟩
          rw [hlens] at hlen
          omega

/-- Witness for C2 (amended) on a single over-long line. -/
theorem chunk_size_bound_witness :
    str "hello world" ∈ MarkdownChunker.chunk ⟨0, 10, 0⟩ (str "hello world") ∧
    ((str "hello world").length ≤ 0 + 10 + 0 + 10 ∨
      ∃ l, (∃ t u, str "hello world" = t ++ l ++ u) ∧ '\n' ∉ l ∧
        10 < l.length) :=
  ⟨by decide, chunk_size_bound ⟨0, 10, 0⟩ (str "hello world")
    (str "hello world") (by decide)⟩

/-- C2 (counterexample): with `min_characters = 30`, `max_characters = 40`,
`overlap_characters = 0` (a valid configuration) and a non-empty input of
two paragraphs of 10 and 35 characters, `chunk` returns a single 47
character chunk that still contains the paragraph separator `"\n\n"` —
it exceeds `max_characters` without being a single atomic paragraph or
line. -/
theorem chunk_size_claim_cex :
    (⟨30, 40, 0⟩ : ChunkConfig).overlap_characters <
      (⟨30, 40, 0⟩ : ChunkConfig).max_characters ∧
    trim (str "aaaaaaaaaa\n\nbbbbbbbbbbbbbbbbbbbbbbbbbbbbbbbbbbb") ≠ [] ∧
    ¬ MarkdownChunker.chunkSizeClaim ⟨30, 40, 0⟩
      (str "aaaaaaaaaa\n\nbbbbbbbbbbbbbbbbbbbbbbbbbbbbbbbbbbb") := by
  refine ⟨by decide, by decide, ?_⟩
  intro h
  have hc := h (str "aaaaaaaaaa" ++ nl2 ++ str "bbbbbbbbbbbbbbbbbbbbbbbbbbbbbbbbbbb")
    (by decide)
  rcases hc with hlen | hno
  · exact absurd hlen (by decide)
  · exact hno ⟨str "aaaaaaaaaa", str "bbbbbbbbbbbbbbbbbbbbbbbbbbbbbbbbbbb", by decide⟩

/-! ## C5 — structure of the injected overlap -/

open MarkdownChunker

theorem findCharIdx_decomp (p : Char → Bool) :
    ∀ (s : Str) (i : Nat), findCharIdx p s = some i →
      ∃ t c rest, s = t ++ c :: rest ∧ t.length = i ∧ p c = true := by
  intro s
  induction s with
  | nil => intro i h; cases h
  | cons c cs ih =>
    intro i h
    rw [findCharIdx] at h
    by_cases hp : p c
    · rw [if_pos hp] at h
      have h0 : (0 : Nat) = i := Option.some.inj h
      exact ⟨[], c, cs, rfl, by simp [← h0], hp⟩
    · rw [if_neg hp] at h
      cases hfind : findCharIdx p cs with
      | none => rw [hfind] at h; cases h
      | some j =>
        rw [hfind] at h
        simp at h
        obtain ⟨t, c', rest, rfl, hlen, hpc⟩ := ih j hfind
        refine ⟨c :: t, c', rest, rfl, ?_, hpc⟩
        simp only [List.length_cons, hlen]
        omega

theorem computeOverlap_props (cfg : ChunkConfig) (prev o : Str)
    (h : computeOverlap cfg prev = some o) :
    ∃ s t, t ++ s = prev ∧ o = trim s ∧ o ≠ [] ∧ 20 < s.length ∧
      s.length ≤ cfg.overlap_characters ∧
      (s.length = min cfg.overlap_characters prev.length ∨
        ∃ t' c', prev = t' ++ c' :: s ∧ isWS c' = true) := by
  rw [computeOverlap] at h
  by_cases hcond : trim (prev.drop (wordStartOf cfg prev)) ≠ [] ∧
      20 < (prev.drop (wordStartOf cfg prev)).length
  · rw [if_pos hcond] at h
    have ho : o = trim (prev.drop (wordStartOf cfg prev)) := (Option.some.inj h).symm
    refine ⟨prev.drop (wordStartOf cfg prev), prev.take (wordStartOf cfg prev),
      List.take_append_drop _ _, ho, ho ▸ hcond.1, hcond.2, ?_, ?_⟩
    · rw [List.length_drop]
      have h2 := overlapStartOf_bounds cfg prev
      have h3 := wordStartOf_ge cfg prev
      omega
    · cases hfind : findCharIdx isWS (prev.drop (overlapStartOf cfg prev)) with
      | none =>
        have hw : wordStartOf cfg prev = overlapStartOf cfg prev := by
          rw [wordStartOf, hfind]
        left
        rw [hw, List.length_drop, overlapStartOf, floor_char_boundary]
        by_cases hcase : prev.length ≤ prev.length - cfg.overlap_characters
        · rw [if_pos hcase]
          omega
        · rw [if_neg hcase]
          omega
      | some p =>
        have hw : wordStartOf cfg prev = overlapStartOf cfg prev + p + 1 := by
          rw [wordStartOf, hfind]
        obtain ⟨t, c, rest, hdecomp, hlen, hpc⟩ :=
          findCharIdx_decomp isWS (prev.drop (overlapStartOf cfg prev)) p hfind
        have hs : prev.drop (wordStartOf cfg prev) = rest := by
          rw [hw]
          have h1 : prev.drop (overlapStartOf cfg prev + p + 1) =
              (prev.drop (overlapStartOf cfg prev)).drop (p + 1) := by
            rw [List.drop_drop, Nat.add_assoc]
          rw [h1, hdecomp]
          have h2 : t ++ c :: rest = (t ++ [c]) ++ rest := by simp
          have h3 : p + 1 = (t ++ [c]).length := by simp [hlen]
          rw [h2, h3, List.drop_left]
        right
        refine ⟨prev.take (overlapStartOf cfg prev) ++ t, c, ?_, hpc⟩
        rw [hs]
        conv_lhs => rw [← List.take_append_drop (overlapStartOf cfg prev) prev]
        rw [hdecomp]
        simp
  · rw [if_neg hcond] at h
    cases h

theorem overlapZip_length (cfg : ChunkConfig) :
    ∀ (l : List Str) (prev : Str), (overlapZip cfg prev l).length = l.length := by
  intro l
  induction l with
  | nil => intro prev; rfl
  | cons c cs ih =>
    intro prev
    rw [overlapZip, List.length_cons, List.length_cons, ih]

theorem apply_overlap_length (cfg : ChunkConfig) (cs : List Str) :
    (apply_overlap cfg cs).length = cs.length := by
  rw [apply_overlap.eq_def]
  by_cases hcond : cfg.overlap_characters = 0 ∨ cs.length < 2
  · rw [if_pos hcond]
  · rw [if_neg hcond]
    cases cs with
    | nil => rfl
    | cons c0 rest =>
      dsimp only
      rw [List.length_cons, List.length_cons, overlapZip_length]

theorem overlapZip_getD (cfg : ChunkConfig) :
    ∀ (l : List Str) (prev : Str) (i : Nat), i < l.length →
      (overlapZip cfg prev l).getD i [] =
        overlapOne cfg ((prev :: l).getD i []) (l.getD i []) := by
  intro l
  induction l with
  | nil => intro prev i hi; simp at hi
  | cons c cs ih =>
    intro prev i hi
    cases i with
    | zero => rfl
    | succ j =>
      rw [overlapZip]
      rw [List.getD_cons_succ, List.getD_cons_succ, List.getD_cons_succ]
      exact ih c j (by simpa using hi)

theorem chunk_eq_apply_overlap (cfg : ChunkConfig) (text : Str) :
    chunk cfg text = apply_overlap cfg (preChunks cfg text) := by
  by_cases hemp : (trim text).isEmpty
  · rw [chunk, if_pos hemp, preChunks, if_pos hemp,
      apply_overlap, if_pos (Or.inr (by simp))]
  · rw [chunk, if_neg hemp]

/-- C5 (amended): whenever `overlap_characters > 0`, every chunk after the
first is either unchanged, or carries an injected overlap `o` that is the
whitespace-trimmed form of a suffix `s` of the previous pre-overlap
chunk; `s` is longer than 20 characters before trimming and at most
`overlap_characters` long, and it starts either right after the first
whitespace in the final `overlap_characters`-character window of the
previous chunk (a word boundary) or, when that window contains no
whitespace, at the window start — possibly mid-word.  The trimmed
overlap `o` is non-empty but can be shorter than 20 characters. -/
theorem overlap_amended (cfg : ChunkConfig) (text : Str) (i : Nat)
    (hovc : 0 < cfg.overlap_characters)
    (hi : i + 1 < (chunk cfg text).length) :
    (chunk cfg text).getD (i + 1) [] = (preChunks cfg text).getD (i + 1) [] ∨
    ∃ o, (chunk cfg text).getD (i + 1) [] =
        dotsMark ++ o ++ dashMark ++ (preChunks cfg text).getD (i + 1) [] ∧
      computeOverlap cfg ((preChunks cfg text).getD i []) = some o ∧
      ∃ s t, t ++ s = (preChunks cfg text).getD i [] ∧ o = trim s ∧ o ≠ [] ∧
        20 < s.length ∧ s.length ≤ cfg.overlap_characters ∧
        (s.length = min cfg.overlap_characters
            ((preChunks cfg text).getD i []).length ∨
          ∃ t' c', (preChunks cfg text).getD i [] = t' ++ c' :: s ∧
            isWS c' = true) := by
  rw [chunk_eq_apply_overlap] at hi ⊢
  have hpre2 : 2 ≤ (preChunks cfg text).length := by
    rw [apply_overlap_length] at hi
    omega
  obtain ⟨c0, rest, hpre⟩ : ∃ c0 rest, preChunks cfg text = c0 :: rest := by
    cases hp : preChunks cfg text with
    | nil => rw [hp] at hpre2; simp at hpre2
    | cons a b => exact ⟨a, b, rfl⟩
  have hcond : ¬ (cfg.overlap_characters = 0 ∨ (preChunks cfg text).length < 2) := by
    intro hor
    rcases hor with h | h
    · omega
    · omega
  rw [hpre] at hi hcond ⊢
  rw [apply_overlap.eq_def, if_neg hcond]
  dsimp only
  rw [List.getD_cons_succ]
  have hrest : i < rest.length := by
    rw [apply_overlap_length, List.length_cons] at hi
    omega
  rw [overlapZip_getD cfg rest c0 i hrest]
  rw [overlapOne]
  have hgi : (c0 :: rest).getD i [] = ((c0 :: rest) : List Str).getD i [] := rfl
  cases hco : computeOverlap cfg ((c0 :: rest).getD i []) with
  | none =>
    left
    dsimp only
    rw [List.getD_cons_succ]
  | some o =>
    right
    obtain ⟨s, t, hts, ho, hne, hlen, hle, hbound⟩ :=
      computeOverlap_props cfg ((c0 :: rest).getD i []) o hco
    refine ⟨o, ?_, rfl, s, t, hts, ho, hne, hlen, hle, hbound⟩
    dsimp only
    rw [List.getD_cons_succ]

/-- Witness for C5 (amended): a two-section document with
`overlap_characters = 23` where the second chunk does carry an injected
overlap. -/
theorem overlap_amended_witness :
    0 < (⟨0, 100, 23⟩ : ChunkConfig).overlap_characters ∧
    0 + 1 < (chunk ⟨0, 100, 23⟩
      (str "# A\nzzw                  abcd\n# B\nsecond part here")).length ∧
    ((chunk ⟨0, 100, 23⟩
        (str "# A\nzzw                  abcd\n# B\nsecond part here")).getD
          (0 + 1) [] =
      (preChunks ⟨0, 100, 23⟩
        (str "# A\nzzw                  abcd\n# B\nsecond part here")).getD
          (0 + 1) [] ∨
    ∃ o, (chunk ⟨0, 100, 23⟩
        (str "# A\nzzw                  abcd\n# B\nsecond part here")).getD
          (0 + 1) [] =
        dotsMark ++ o ++ dashMark ++ (preChunks ⟨0, 100, 23⟩
          (str "# A\nzzw                  abcd\n# B\nsecond part here")).getD
            (0 + 1) [] ∧
      computeOverlap ⟨0, 100, 23⟩ ((preChunks ⟨0, 100, 23⟩
        (str "# A\nzzw                  abcd\n# B\nsecond part here")).getD 0 []) =
          some o ∧
      ∃ s t, t ++ s = (preChunks ⟨0, 100, 23⟩
          (str "# A\nzzw                  abcd\n# B\nsecond part here")).getD 0 [] ∧
        o = trim s ∧ o ≠ [] ∧ 20 < s.length ∧ s.length ≤ 23 ∧
        (s.length = min 23 ((preChunks ⟨0, 100, 23⟩
            (str "# A\nzzw                  abcd\n# B\nsecond part here")).getD
              0 []).length ∨
          ∃ t' c', (preChunks ⟨0, 100, 23⟩
            (str "# A\nzzw                  abcd\n# B\nsecond part here")).getD
              0 [] = t' ++ c' :: s ∧ isWS c' = true)) :=
  ⟨by decide, by decide,
    overlap_amended ⟨0, 100, 23⟩
      (str "# A\nzzw                  abcd\n# B\nsecond part here") 0
      (by decide) (by decide)⟩

/-- C5 (counterexample): with `overlap_characters = 23` the input below
produces two chunks and injects the overlap `"abcd"` into the second:
the untrimmed overlap window suffix is longer than 20 characters (so the
`overlap.len() > 20` check passes), but after trimming whitespace only 4
characters remain — the claim that an injected overlap is never shorter
than 20 characters after trimming is false. -/
theorem overlap_claim_cex :
    0 < (⟨0, 100, 23⟩ : ChunkConfig).overlap_characters ∧
    ¬ overlapClaim ⟨0, 100, 23⟩
      (str "# A\nzzw                  abcd\n# B\nsecond part here") := by
  refine ⟨by decide, ?_⟩
  intro h
  have h0 := h (by decide) 0 (by decide)
  rcases h0 with heq | ⟨o, heq, hlen, _⟩
  · exact absurd heq (by decide)
  · have hconc : (chunk ⟨0, 100, 23⟩
        (str "# A\nzzw                  abcd\n# B\nsecond part here")).getD
          (0 + 1) [] =
        dotsMark ++ str "abcd" ++ dashMark ++ (preChunks ⟨0, 100, 23⟩
          (str "# A\nzzw                  abcd\n# B\nsecond part here")).getD
            (0 + 1) [] := by decide
    rw [hconc] at heq
    have h1 := List.append_cancel_right heq
    have h2 := List.append_cancel_right h1
    have h3 := List.append_cancel_left h2
    rw [← h3] at hlen
    exact absurd hlen (by decide)

end RagCore
